import Mathlib

/-!
Verification of the big-integer / finite-field / elliptic-curve core of
`cryptography_from_scratch` (crates `cryp_alg`, `cryp_ec`).

A machine word ("limb", Rust trait `Limb` implemented for `u32`/`u64`,
`src/cryp_alg/src/biginteger/limb.rs`) is modelled as a natural number
that is `< B`, where `B` is the limb radix (`2^32` or `2^64`); wrapping
machine arithmetic becomes explicit `% B` / `/ B`.  A `LimbInt<L, N>`
(`src/cryp_alg/src/biginteger/limbint.rs`) is a little-endian `List Nat`
of length `N` whose entries are `< B`.
-/

namespace Cryp

/-- Value, in radix `B`, of a little-endian limb list (limb 0 is least
significant).  This is the interpretation function for `LimbInt`. -/
def val (B : Nat) : List Nat → Nat
  | [] => 0
  | x :: xs => x + B * val B xs

/-- All limbs of a list are in range for radix `B`. -/
def InRange (B : Nat) (xs : List Nat) : Prop := ∀ x ∈ xs, x < B

instance (B : Nat) (xs : List Nat) : Decidable (InRange B xs) :=
  inferInstanceAs (Decidable (∀ x ∈ xs, x < B))

theorem val_nil (B : Nat) : val B [] = 0 := rfl

theorem val_cons (B x : Nat) (xs : List Nat) :
    val B (x :: xs) = x + B * val B xs := rfl

theorem val_append (B : Nat) (xs ys : List Nat) :
    val B (xs ++ ys) = val B xs + B ^ xs.length * val B ys := by
  induction xs with
  | nil => simp [val]
  | cons x xs ih =>
      simp only [List.cons_append, val_cons, ih, List.length_cons]
      ring

theorem val_lt (B : Nat) (xs : List Nat) (h : InRange B xs) :
    val B xs < B ^ xs.length := by
  induction xs with
  | nil => simp [val]
  | cons x xs ih =>
      have hx : x < B := h x (by simp)
      have hxs : val B xs < B ^ xs.length := ih (fun y hy => h y (by simp [hy]))
      have hB : 0 < B := lt_of_le_of_lt (Nat.zero_le x) hx
      calc x + B * val B xs < B + B * val B xs := by omega
        _ = B * (1 + val B xs) := by ring
        _ ≤ B * B ^ xs.length := by
              exact Nat.mul_le_mul_left _ (by omega)
        _ = B ^ (x :: xs).length := by rw [List.length_cons]; ring

theorem val_replicate_zero (B n : Nat) : val B (List.replicate n 0) = 0 := by
  induction n with
  | zero => rfl
  | succ n ih => simp [List.replicate_succ, val_cons, ih]

theorem val_eq_zero_iff (B : Nat) (hB : 0 < B) (xs : List Nat) :
    val B xs = 0 ↔ ∀ x ∈ xs, x = 0 := by
  induction xs with
  | nil => simp [val]
  | cons x xs ih =>
      simp only [val_cons, List.mem_cons]
      constructor
      · intro h
        have hx : x = 0 := by omega
        have hxs : val B xs = 0 := by
          have h2 : B * val B xs = 0 := by omega
          exact (Nat.mul_eq_zero.mp h2).resolve_left (by omega)
        intro y hy
        rcases hy with rfl | hy
        · exact hx
        · exact ih.mp hxs y hy
      · intro h
        have hx : x = 0 := h x (Or.inl rfl)
        have : val B xs = 0 := ih.mpr (fun y hy => h y (Or.inr hy))
        simp [hx, this]

/-- The all-zero list is the only in-range list of value `0`; more
generally a list of limbs is zero-valued iff it is `List.replicate n 0`. -/
theorem eq_replicate_zero_of_val_eq_zero (B : Nat) (hB : 0 < B) (xs : List Nat)
    (h : val B xs = 0) : xs = List.replicate xs.length 0 := by
  have h0 := (val_eq_zero_iff B hB xs).mp h
  apply List.eq_replicate_of_mem
  intro y hy
  exact h0 y hy

/-- Limb extraction: limb `i` of an in-range list is digit `i` of its value. -/
theorem getD_eq_val_div_mod (B : Nat) (hB : 1 < B) (xs : List Nat)
    (h : InRange B xs) (i : Nat) :
    xs.getD i 0 = val B xs / B ^ i % B := by
  induction xs generalizing i with
  | nil =>
      simp [val, List.getD]
  | cons x xs ih =>
      have hx : x < B := h x (by simp)
      have hxs : InRange B xs := fun y hy => h y (by simp [hy])
      cases i with
      | zero =>
          simp only [List.getD_cons_zero, val_cons, pow_zero, Nat.div_one]
          rw [Nat.add_mul_mod_self_left, Nat.mod_eq_of_lt hx]
      | succ i =>
          simp only [List.getD_cons_succ, val_cons, ih hxs i]
          have hdiv : (x + B * val B xs) / B ^ (i + 1) = val B xs / B ^ i := by
            rw [pow_succ, mul_comm (B ^ i) B, ← Nat.div_div_eq_div_mul]
            congr 1
            rw [Nat.add_mul_div_left _ _ (by omega : 0 < B),
              Nat.div_eq_of_lt hx, Nat.zero_add]
          rw [hdiv]

/-- Value of the list that is zero except for limb `i`
(`LimbInt::single_power`, limbint.rs lines 27-31). -/
theorem val_set_replicate (B u i n : Nat) (hin : i < n) :
    val B ((List.replicate n 0).set i u) = u * B ^ i := by
  induction n generalizing i with
  | zero => omega
  | succ n ih =>
      cases i with
      | zero => simp [List.replicate_succ, val_cons, val_replicate_zero]
      | succ i =>
          simp only [List.replicate_succ, List.set_cons_succ, val_cons,
            ih i (by omega)]
          ring

end Cryp

namespace Cryp

/-!
## Limb operations (`src/cryp_alg/src/biginteger/limb.rs`)

The `Limb` trait's carry type is a single bit; we model it as a `Nat`
that is `0` or `1` (`L::NO = 0`).  `u32`/`u64::add_carry` computes
`self + rhs + carry` as a wrapping sum plus an overflow bit, i.e. the
radix-`B` quotient/remainder of the exact sum; `sub_carry` computes the
wrapping difference `self - rhs - carry` with a borrow bit; `mul_carry`
computes `self * rhs + carry` split into a low and a high word.
-/

/-- `Limb::add_carry` (limb.rs lines 55-59 and 104-108). -/
def add_carry (B a b c : Nat) : Nat × Nat := ((a + b + c) % B, (a + b + c) / B)

/-- `Limb::sub_carry` (limb.rs lines 60-64 and 110-114): wrapping
`a - b - c` together with the borrow bit. -/
def sub_carry (B a b c : Nat) : Nat × Nat :=
  ((a + B - (b + c)) % B, if a < b + c then 1 else 0)

/-- `Limb::mul_carry` (limb.rs lines 66-69 and 116-119): the double-width
product `a * b + c` split into `(low, high)`. -/
def mul_carry (B a b c : Nat) : Nat × Nat := ((a * b + c) % B, (a * b + c) / B)

theorem add_carry_exact (B a b c : Nat) (hB : 0 < B) :
    (add_carry B a b c).1 + B * (add_carry B a b c).2 = a + b + c := by
  simp only [add_carry]
  have := Nat.div_add_mod (a + b + c) B
  omega

theorem sub_carry_exact (B a b c : Nat) (hB : 0 < B) (ha : a < B) (hb : b < B)
    (hc : c ≤ 1) :
    (sub_carry B a b c).1 + b + c = a + B * (sub_carry B a b c).2 := by
  simp only [sub_carry]
  by_cases h : a < b + c
  · simp only [if_pos h]
    have : a + B - (b + c) < B := by omega
    rw [Nat.mod_eq_of_lt this]
    omega
  · simp only [if_neg h]
    have : a + B - (b + c) = (a - (b + c)) + B := by omega
    rw [this, Nat.add_mod_right, Nat.mod_eq_of_lt (by omega)]
    omega

theorem mul_carry_exact (B a b c : Nat) (hB : 0 < B) :
    (mul_carry B a b c).1 + B * (mul_carry B a b c).2 = a * b + c := by
  simp only [mul_carry]
  have := Nat.div_add_mod (a * b + c) B
  omega

/-- The high word of `mul_carry` stays a limb when its inputs are limbs. -/
theorem mul_carry_high_lt (B a b c : Nat) (hB : 0 < B) (ha : a < B)
    (hb : b < B) (hc : c < B) : (mul_carry B a b c).2 < B := by
  simp only [mul_carry]
  have h1 : a * b + c ≤ (B - 1) * (B - 1) + (B - 1) := by
    have := Nat.mul_le_mul (by omega : a ≤ B - 1) (by omega : b ≤ B - 1)
    omega
  have h2 : (B - 1) * (B - 1) + (B - 1) = (B - 1) * B := by
    cases B with
    | zero => omega
    | succ n => simp [Nat.succ_sub_one]; ring
  rw [Nat.div_lt_iff_lt_mul hB]
  calc a * b + c ≤ (B - 1) * B := by omega
    _ < B * B := by
        have h3 : B - 1 < B := by omega
        exact (Nat.mul_lt_mul_right hB).mpr h3

/-!
## `LimbInt` ripple add / sub (limbint.rs lines 68-88)

`carrying_add`/`carrying_sub` ripple the limb carry across all `N` limbs,
least significant first, and return the final carry.
-/

/-- `LimbInt::carrying_add` (limbint.rs lines 68-77). -/
def carrying_add (B : Nat) : List Nat → List Nat → Nat → List Nat × Nat
  | x :: xs, y :: ys, c =>
      let s := add_carry B x y c
      let r := carrying_add B xs ys s.2
      (s.1 :: r.1, r.2)
  | _, _, c => ([], c)

/-- `LimbInt::carrying_sub` (limbint.rs lines 79-88). -/
def carrying_sub (B : Nat) : List Nat → List Nat → Nat → List Nat × Nat
  | x :: xs, y :: ys, c =>
      let s := sub_carry B x y c
      let r := carrying_sub B xs ys s.2
      (s.1 :: r.1, r.2)
  | _, _, c => ([], c)

theorem carrying_add_length (B : Nat) (xs ys : List Nat) (c : Nat)
    (h : xs.length = ys.length) :
    (carrying_add B xs ys c).1.length = xs.length := by
  induction xs generalizing ys c with
  | nil => cases ys <;> simp_all [carrying_add]
  | cons x xs ih =>
      cases ys with
      | nil => simp at h
      | cons y ys =>
          simp only [carrying_add, List.length_cons] at *
          rw [ih ys _ (by omega)]

theorem carrying_add_in_range (B : Nat) (hB : 0 < B) (xs ys : List Nat)
    (c : Nat) : InRange B (carrying_add B xs ys c).1 := by
  induction xs generalizing ys c with
  | nil => intro z hz; cases ys <;> simp [carrying_add] at hz
  | cons x xs ih =>
      cases ys with
      | nil => intro z hz; simp [carrying_add] at hz
      | cons y ys =>
          intro z hz
          simp only [carrying_add, List.mem_cons] at hz
          rcases hz with rfl | hz
          · exact Nat.mod_lt _ hB
          · exact ih ys _ z hz

/-- Exact-value specification of the ripple add: the output limbs together
with the final carry represent `val xs + val ys + c` exactly. -/
theorem carrying_add_exact (B : Nat) (hB : 0 < B) (xs ys : List Nat) (c : Nat)
    (h : xs.length = ys.length) :
    val B (carrying_add B xs ys c).1 +
      B ^ xs.length * (carrying_add B xs ys c).2 = val B xs + val B ys + c := by
  induction xs generalizing ys c with
  | nil =>
      cases ys with
      | nil => simp [carrying_add, val]
      | cons y ys => simp at h
  | cons x xs ih =>
      cases ys with
      | nil => simp at h
      | cons y ys =>
          simp only [carrying_add, val_cons, List.length_cons]
          have hrec := ih ys (add_carry B x y c).2 (by simpa using h)
          have hstep := add_carry_exact B x y c hB
          have hpow : B ^ (xs.length + 1) = B * B ^ xs.length := by ring
          rw [hpow]
          nlinarith [hrec, hstep]

/-- The final carry of the ripple add is a bit when the inputs are in
range and the incoming carry is a bit. -/
theorem carrying_add_carry_le (B : Nat) (hB : 0 < B) (xs ys : List Nat)
    (c : Nat) (hx : InRange B xs) (hy : InRange B ys) (hc : c ≤ 1)
    (h : xs.length = ys.length) : (carrying_add B xs ys c).2 ≤ 1 := by
  induction xs generalizing ys c with
  | nil => cases ys with
    | nil => simpa [carrying_add] using hc
    | cons y ys => simp at h
  | cons x xs ih =>
      cases ys with
      | nil => simp at h
      | cons y ys =>
          simp only [carrying_add]
          apply ih
        
          · exact fun z hz => hx z (by simp [hz])
          · exact fun z hz => hy z (by simp [hz])
          · have hx0 : x < B := hx x (by simp)
            have hy0 : y < B := hy y (by simp)
            simp only [add_carry]
            have h1 : x + y + c < 2 * B := by omega
            have h2 := Nat.div_add_mod (x + y + c) B
            have h3 : (x + y + c) % B < B := Nat.mod_lt _ hB
            by_contra hcon
            have h4 : 2 ≤ (x + y + c) / B := by omega
            have h5 : B * 2 ≤ B * ((x + y + c) / B) := Nat.mul_le_mul_left B h4
            omega
          · simpa using h

end Cryp

namespace Cryp

theorem carrying_sub_length (B : Nat) (xs ys : List Nat) (c : Nat)
    (h : xs.length = ys.length) :
    (carrying_sub B xs ys c).1.length = xs.length := by
  induction xs generalizing ys c with
  | nil => cases ys <;> simp_all [carrying_sub]
  | cons x xs ih =>
      cases ys with
      | nil => simp at h
      | cons y ys =>
          simp only [carrying_sub, List.length_cons] at *
          rw [ih ys _ (by omega)]

theorem carrying_sub_in_range (B : Nat) (hB : 0 < B) (xs ys : List Nat)
    (c : Nat) : InRange B (carrying_sub B xs ys c).1 := by
  induction xs generalizing ys c with
  | nil => intro z hz; cases ys <;> simp [carrying_sub] at hz
  | cons x xs ih =>
      cases ys with
      | nil => intro z hz; simp [carrying_sub] at hz
      | cons y ys =>
          intro z hz
          simp only [carrying_sub, List.mem_cons] at hz
          rcases hz with rfl | hz
          · exact Nat.mod_lt _ hB
          · exact ih ys _ z hz

/-- Exact-value specification of the ripple subtract: output plus the
subtrahend and borrow reassemble the minuend plus `B^N` times the final
borrow. -/
theorem carrying_sub_exact (B : Nat) (hB : 0 < B) (xs ys : List Nat) (c : Nat)
    (hx : InRange B xs) (hy : InRange B ys) (hc : c ≤ 1)
    (h : xs.length = ys.length) :
    val B (carrying_sub B xs ys c).1 + val B ys + c =
      val B xs + B ^ xs.length * (carrying_sub B xs ys c).2 ∧
    (carrying_sub B xs ys c).2 ≤ 1 := by
  induction xs generalizing ys c with
  | nil =>
      cases ys with
      | nil => simpa [carrying_sub, val] using hc
      | cons y ys => simp at h
  | cons x xs ih =>
      cases ys with
      | nil => simp at h
      | cons y ys =>
          have hx0 : x < B := hx x (by simp)
          have hy0 : y < B := hy y (by simp)
          have hxs : InRange B xs := fun z hz => hx z (by simp [hz])
          have hys : InRange B ys := fun z hz => hy z (by simp [hz])
          have hc2 : (sub_carry B x y c).2 ≤ 1 := by
            simp only [sub_carry]
            split <;> omega
          have hrec := ih ys (sub_carry B x y c).2 hxs hys hc2 (by simpa using h)
          have hstep := sub_carry_exact B x y c hB hx0 hy0 hc
          constructor
          · simp only [carrying_sub, val_cons, List.length_cons]
            have hpow : B ^ (xs.length + 1) = B * B ^ xs.length := by ring
            rw [hpow]
            nlinarith [hrec.1, hstep]
          · simp only [carrying_sub]
            exact hrec.2

/-- The final borrow of `carrying_sub` is set exactly when the subtrahend
plus incoming borrow exceeds the minuend (this is what makes the
"checked sub instead of comparison" idiom in the field code correct). -/
theorem carrying_sub_borrow_iff (B : Nat) (hB : 0 < B) (xs ys : List Nat)
    (c : Nat) (hx : InRange B xs) (hy : InRange B ys) (hc : c ≤ 1)
    (h : xs.length = ys.length) :
    (carrying_sub B xs ys c).2 = if val B xs < val B ys + c then 1 else 0 := by
  obtain ⟨hval, hb⟩ := carrying_sub_exact B hB xs ys c hx hy hc h
  have hout : val B (carrying_sub B xs ys c).1 < B ^ xs.length := by
    have := val_lt B (carrying_sub B xs ys c).1
      (carrying_sub_in_range B hB xs ys c)
    rwa [carrying_sub_length B xs ys c h] at this
  interval_cases hcase : (carrying_sub B xs ys c).2
  · have : ¬ val B xs < val B ys + c := by omega
    simp [this]
  · have : val B xs < val B ys + c := by
      have hxlt : val B xs < B ^ xs.length := val_lt B xs hx
      omega
    simp [this]

end Cryp

namespace Cryp

/-!
## `LimbInt::carrying_mul` (limbint.rs lines 90-129)

The Rust code keeps the `2N`-limb accumulator as two arrays `w_l`, `w_h`;
position `i + j` of the combined array `w_l ++ w_h` is written by inner
iteration `(i, j)`, and `w_h[i]` (combined position `N + i`) receives the
final inner carry.  We model the combined accumulator as the window of
the `N` positions `i .. i+N-1` still reachable at outer iteration `i`:
each outer step finalises position `i` (the window head) and appends the
carry at position `i + N`.

The inner per-step operations are exactly those of the source:
`(v_1, u_1) = self[j].mul_carry(rhs[i], c)`, `(v, temp) =
v_1.add_carry(w[i+j], NO)`, `(u, zer) = u_1.add_carry(ZERO, temp)` with
`debug_assert!(zer == NO)`.  The returned `Bool` conjoins all the
`zer == NO` / `z == NO` assertion checks, so `true` means no internal
overflow assertion fires.
-/

/-- Inner loop of `carrying_mul` (limbint.rs lines 95-113) for one limb
`r` of `rhs`: adds `self * r + c` into the current window `w`, returning
the updated window, the outgoing carry, and the conjunction of the
`debug_assert!(zer == NO)` checks. -/
def carrying_mul_inner (B : Nat) (r : Nat) :
    List Nat → List Nat → Nat → List Nat × Nat × Bool
  | a :: as_, w :: ws, c =>
      let m := mul_carry B a r c
      let s := add_carry B m.1 w 0
      let t := add_carry B m.2 0 s.2
      let rest := carrying_mul_inner B r as_ ws t.1
      (s.1 :: rest.1, rest.2.1, (t.2 == 0) && rest.2.2)
  | _, _, c => ([], c, true)

/-- Outer loop of `carrying_mul` (limbint.rs lines 94-115): one pass per
limb of `rhs`, producing the full `len rhs + len window` limb product
accumulator (low positions first). -/
def carrying_mul_outer (B : Nat) (a : List Nat) :
    List Nat → List Nat → List Nat × Bool
  | [], window => (window, true)
  | r :: rs, window =>
      let inner := carrying_mul_inner B r a window 0
      match inner.1 with
      | [] =>
          let rest := carrying_mul_outer B a rs []
          (rest.1, inner.2.2 && rest.2)
      | v :: vs =>
          let rest := carrying_mul_outer B a rs (vs ++ [inner.2.1])
          (v :: rest.1, inner.2.2 && rest.2)

/-- `LimbInt::carrying_mul` (limbint.rs lines 90-129): full `N×N → 2N`
schoolbook product of `a` and `rhs` plus the `N`-limb `carry`, returned
as `((low, high), asserts_ok)` where `asserts_ok` is `true` iff none of
the internal overflow assertions (`debug_assert!(zer == NO)` in the inner
loops and `assert_eq!(z, NO)` after folding in `carry`) fires. -/
def carrying_mul (B : Nat) (a rhs carry : List Nat) :
    (List Nat × List Nat) × Bool :=
  let n := a.length
  let w := carrying_mul_outer B a rhs (List.replicate n 0)
  let res_l := w.1.take n
  let res_h := w.1.drop n
  let fold := carrying_add B res_l carry 0
  let temp := if fold.2 ≠ 0
    then (List.replicate n 0).set 0 1
    else List.replicate n 0
  let high := carrying_add B res_h temp 0
  ((fold.1, high.1), w.2 && (high.2 == 0))

end Cryp

namespace Cryp

/-- An `add_carry` whose exact sum fits in one limb returns that sum with
no carry out. -/
theorem add_carry_eq_of_lt (B a b c : Nat) (h : a + b + c < B) :
    add_carry B a b c = (a + b + c, 0) := by
  simp only [add_carry, Nat.mod_eq_of_lt h, Nat.div_eq_of_lt h]

/-- One inner multiplication step cannot overflow its carry word: this is
the content of `debug_assert!(zer == NO)`. -/
theorem carrying_mul_inner_step (B a r c w : Nat) (hB : 0 < B) (ha : a < B)
    (hr : r < B) (hc : c < B) (hw : w < B) :
    (mul_carry B a r c).2 + (add_carry B (mul_carry B a r c).1 w 0).2 < B := by
  have hm := mul_carry_exact B a r c hB
  have hmh : (mul_carry B a r c).2 < B := mul_carry_high_lt B a r c hB ha hr hc
  have hml : (mul_carry B a r c).1 < B := Nat.mod_lt _ hB
  have hs := add_carry_exact B (mul_carry B a r c).1 w 0 hB
  have hs2 : (add_carry B (mul_carry B a r c).1 w 0).2 ≤ 1 := by
    simp only [add_carry]
    have h1 : (mul_carry B a r c).1 + w + 0 < 2 * B := by omega
    have h2 := Nat.div_add_mod ((mul_carry B a r c).1 + w + 0) B
    have h3 : ((mul_carry B a r c).1 + w + 0) % B < B := Nat.mod_lt _ hB
    by_contra hcon
    have h4 : 2 ≤ ((mul_carry B a r c).1 + w + 0) / B := by omega
    have h5 : B * 2 ≤ B * (((mul_carry B a r c).1 + w + 0) / B) :=
      Nat.mul_le_mul_left B h4
    omega
  rcases Nat.lt_or_ge ((mul_carry B a r c).2 + 1) B with h | h
  · omega
  · -- the high word is B - 1, so the low word is 0 and no carry enters
    have hh : (mul_carry B a r c).2 = B - 1 := by omega
    have hbound : a * r + c ≤ (B - 1) * B := by
      have := Nat.mul_le_mul (by omega : a ≤ B - 1) (by omega : r ≤ B - 1)
      have he : (B - 1) * (B - 1) + (B - 1) = (B - 1) * B := by
        cases B with
        | zero => omega
        | succ n => simp [Nat.succ_sub_one]; ring
      omega
    have hml0 : (mul_carry B a r c).1 = 0 := by nlinarith [hm, hbound]
    have : (add_carry B (mul_carry B a r c).1 w 0).2 = 0 := by
      rw [hml0, add_carry_eq_of_lt B 0 w 0 (by omega)]
    omega

/-- Specification of the inner loop of `carrying_mul`: the updated window
and outgoing carry exactly represent `as * r + c` added to the old
window, the outgoing carry is a limb, and no assertion fires. -/
theorem carrying_mul_inner_spec (B r : Nat) (hB : 0 < B) (hr : r < B) :
    ∀ (as_ ws : List Nat) (c : Nat), as_.length = ws.length →
    InRange B as_ → InRange B ws → c < B →
    val B (carrying_mul_inner B r as_ ws c).1 +
        B ^ as_.length * (carrying_mul_inner B r as_ ws c).2.1 =
      val B as_ * r + c + val B ws ∧
    (carrying_mul_inner B r as_ ws c).1.length = as_.length ∧
    InRange B (carrying_mul_inner B r as_ ws c).1 ∧
    (carrying_mul_inner B r as_ ws c).2.1 < B ∧
    (carrying_mul_inner B r as_ ws c).2.2 = true := by
  intro as_
  induction as_ with
  | nil =>
      intro ws c hlen ha hw hc
      cases ws with
      | nil =>
          refine ⟨by simp [carrying_mul_inner, val], rfl, ?_, by simpa using hc, rfl⟩
          intro z hz; simp [carrying_mul_inner] at hz
      | cons w ws => simp at hlen
  | cons a as_ ih =>
      intro ws c hlen ha hw hc
      cases ws with
      | nil => simp at hlen
      | cons w ws =>
          have ha0 : a < B := ha a (by simp)
          have hw0 : w < B := hw w (by simp)
          have has : InRange B as_ := fun z hz => ha z (by simp [hz])
          have hws : InRange B ws := fun z hz => hw z (by simp [hz])
          have hm := mul_carry_exact B a r c hB
          have hs := add_carry_exact B (mul_carry B a r c).1 w 0 hB
          have hstep := carrying_mul_inner_step B a r c w hB ha0 hr hc hw0
          have hteq : add_carry B (mul_carry B a r c).2 0
              (add_carry B (mul_carry B a r c).1 w 0).2 =
              ((mul_carry B a r c).2 + 0 +
                (add_carry B (mul_carry B a r c).1 w 0).2, 0) :=
            add_carry_eq_of_lt B _ _ _ (by omega)
          have ht1 : (add_carry B (mul_carry B a r c).2 0
              (add_carry B (mul_carry B a r c).1 w 0).2).1 =
              (mul_carry B a r c).2 +
                (add_carry B (mul_carry B a r c).1 w 0).2 := by
            rw [hteq]; simp
          have ht2 : (add_carry B (mul_carry B a r c).2 0
              (add_carry B (mul_carry B a r c).1 w 0).2).2 = 0 := by
            rw [hteq]
          have hcnew : (add_carry B (mul_carry B a r c).2 0
              (add_carry B (mul_carry B a r c).1 w 0).2).1 < B := by
            rw [ht1]; omega
          obtain ⟨ihval, ihlen, ihrange, ihcarry, ihok⟩ :=
            ih ws _ (by simpa using hlen) has hws hcnew
          refine ⟨?_, ?_, ?_, ?_, ?_⟩
          · show val B (_ :: _) + _ = _
            simp only [carrying_mul_inner, val_cons, List.length_cons]
            have hpow : B ^ (as_.length + 1) = B * B ^ as_.length := by ring
            rw [hpow]
            zify at ihval hm hs ht1 ⊢
            linear_combination (B : Int) * ihval + hm + hs + (B : Int) * ht1
          · simp only [carrying_mul_inner, List.length_cons]
            rw [ihlen]
          · intro z hz
            simp only [carrying_mul_inner, List.mem_cons] at hz
            rcases hz with rfl | hz
            · exact Nat.mod_lt _ hB
            · exact ihrange z hz
          · simpa only [carrying_mul_inner] using ihcarry
          · simp only [carrying_mul_inner]
            rw [ht2, ihok]
            simp

end Cryp

namespace Cryp

/-- Specification of the outer loop of `carrying_mul`: the accumulated
limb list represents `val a * val rs` plus the initial window, no
assertion fires, and limbs stay in range. -/
theorem carrying_mul_outer_spec (B : Nat) (hB : 0 < B) (a : List Nat)
    (ha : InRange B a) :
    ∀ (rs window : List Nat), a.length = window.length →
    0 < window.length →
    InRange B rs → InRange B window →
    val B (carrying_mul_outer B a rs window).1 =
      val B a * val B rs + val B window ∧
    (carrying_mul_outer B a rs window).1.length = rs.length + window.length ∧
    InRange B (carrying_mul_outer B a rs window).1 ∧
    (carrying_mul_outer B a rs window).2 = true := by
  intro rs
  induction rs with
  | nil =>
      intro window hlen hpos hrs hw
      exact ⟨by simp [carrying_mul_outer, val], by simp [carrying_mul_outer],
        by simpa [carrying_mul_outer] using hw, rfl⟩
  | cons r rs ih =>
      intro window hlen hpos hrs hw
      have hr : r < B := hrs r (by simp)
      have hrs2 : InRange B rs := fun z hz => hrs z (by simp [hz])
      obtain ⟨hival, hilen, hirange, hicarry, hiok⟩ :=
        carrying_mul_inner_spec B r hB hr a window 0 hlen ha hw hB
      cases hi : (carrying_mul_inner B r a window 0).1 with
      | nil =>
          rw [hi] at hilen
          simp only [List.length_nil] at hilen
          omega
      | cons v vs =>
          have hlenvs : a.length = vs.length + 1 := by
            rw [← hilen, hi]; rfl
          have hnew_len : a.length = (vs ++ [(carrying_mul_inner B r a window 0).2.1]).length := by
            simp [hlenvs]
          have hnew_range : InRange B (vs ++ [(carrying_mul_inner B r a window 0).2.1]) := by
            intro z hz
            rcases List.mem_append.mp hz with hz | hz
            · exact hirange z (by rw [hi]; simp [hz])
            · simp at hz; omega
          obtain ⟨ihval, ihlen, ihrange, ihok⟩ :=
            ih (vs ++ [(carrying_mul_inner B r a window 0).2.1]) hnew_len
              (by simp) hrs2 hnew_range
          have hv : v < B := hirange v (by rw [hi]; simp)
          refine ⟨?_, ?_, ?_, ?_⟩
          · simp only [carrying_mul_outer, hi, val_cons]
            rw [ihval, val_append]
            rw [hi, val_cons] at hival
            simp only [val_cons, val_nil, List.length_cons] at *
            zify at hival ⊢
            have hpow : (B : Int) ^ a.length = B * B ^ vs.length := by
              rw [hlenvs]; ring
            rw [hpow] at hival
            linear_combination hival
          · simp only [carrying_mul_outer, hi, List.length_cons]
            rw [ihlen]
            simp [hlenvs, ← hlen]
            omega
          · intro z hz
            simp only [carrying_mul_outer, hi, List.mem_cons] at hz
            rcases hz with rfl | hz
            · exact hv
            · exact ihrange z hz
          · simp only [carrying_mul_outer, hi, Bool.and_eq_true]
            exact ⟨hiok, ihok⟩

end Cryp

namespace Cryp

set_option maxHeartbeats 1000000 in
/-- Full specification of `LimbInt::carrying_mul`: for `N`-limb `a`,
`rhs` and `carry`, the returned halves reassemble exactly to
`a * rhs + carry` and no internal overflow assertion fires. -/
theorem carrying_mul_spec (B : Nat) (hB : 1 < B) (a rhs carry : List Nat)
    (hla : rhs.length = a.length) (hlc : carry.length = a.length)
    (ha : InRange B a) (hrhs : InRange B rhs) (hcarry : InRange B carry) :
    val B (carrying_mul B a rhs carry).1.1 +
        B ^ a.length * val B (carrying_mul B a rhs carry).1.2 =
      val B a * val B rhs + val B carry ∧
    (carrying_mul B a rhs carry).1.1.length = a.length ∧
    (carrying_mul B a rhs carry).1.2.length = a.length ∧
    InRange B (carrying_mul B a rhs carry).1.1 ∧
    InRange B (carrying_mul B a rhs carry).1.2 ∧
    (carrying_mul B a rhs carry).2 = true := by
  have hB0 : 0 < B := by omega
  rcases Nat.eq_zero_or_pos a.length with hN | hN
  · -- degenerate width 0: everything is empty
    have ha0 : a = [] := List.length_eq_zero.mp hN
    have hr0 : rhs = [] := List.length_eq_zero.mp (by omega)
    have hc0 : carry = [] := List.length_eq_zero.mp (by omega)
    subst ha0 hr0 hc0
    refine ⟨by simp [carrying_mul, carrying_mul_outer, carrying_add, val],
      by simp [carrying_mul, carrying_mul_outer, carrying_add],
      by simp [carrying_mul, carrying_mul_outer, carrying_add],
      ?_, ?_, by simp [carrying_mul, carrying_mul_outer, carrying_add]⟩
    · intro z hz; simp [carrying_mul, carrying_mul_outer, carrying_add] at hz
    · intro z hz; simp [carrying_mul, carrying_mul_outer, carrying_add] at hz
  · set N := a.length with hNdef
    obtain ⟨hwval, hwlen, hwrange, hwok⟩ :=
      carrying_mul_outer_spec B hB0 a ha rhs (List.replicate N 0)
        (by simp) (by simpa using hN) hrhs
        (fun z hz => by rw [List.eq_of_mem_replicate hz]; omega)
    simp only [carrying_mul]
    rw [← hNdef]
    set w := (carrying_mul_outer B a rhs (List.replicate N 0)).1 with hwdef
    have hwlen2 : w.length = 2 * N := by rw [hwlen]; simp [hla]; omega
    have hlow_len : (w.take N).length = N := by
      rw [List.length_take]; omega
    have hhigh_len : (w.drop N).length = N := by
      rw [List.length_drop]; omega
    have hsplit : val B w = val B (w.take N) + B ^ N * val B (w.drop N) := by
      conv_lhs => rw [← List.take_append_drop N w]
      rw [val_append, hlow_len]
    have hlow_range : InRange B (w.take N) :=
      fun z hz => hwrange z (List.mem_of_mem_take hz)
    have hhigh_range : InRange B (w.drop N) :=
      fun z hz => hwrange z (List.mem_of_mem_drop hz)
    have hwbound : val B w ≤ (B ^ N - 1) * (B ^ N - 1) := by
      rw [hwval, val_replicate_zero, Nat.add_zero]
      have h1 : val B a < B ^ N := val_lt B a ha
      have h2 : val B rhs < B ^ N := by
        have := val_lt B rhs hrhs
        rwa [hla] at this
      exact Nat.mul_le_mul (by omega) (by omega)
    have hPpos : 1 < B ^ N := by
      calc 1 < B := hB
        _ = B ^ 1 := (pow_one B).symm
        _ ≤ B ^ N := Nat.pow_le_pow_right (by omega) hN
    have hhigh_bound : val B (w.drop N) ≤ B ^ N - 2 := by
      obtain ⟨Q, hQ⟩ : ∃ Q, B ^ N = Q + 2 := ⟨B ^ N - 2, by omega⟩
      rw [hQ] at hsplit hwbound ⊢
      have hsub : Q + 2 - 1 = Q + 1 := by omega
      rw [hsub] at hwbound
      by_contra hcon
      have h3 : Q + 1 ≤ val B (w.drop N) := by omega
      have h4 : (Q + 2) * (Q + 1) ≤ (Q + 2) * val B (w.drop N) :=
        Nat.mul_le_mul_left _ h3
      nlinarith [hsplit, hwbound, h4]
    -- fold in the carry
    have hfold := carrying_add_exact B hB0 (w.take N) carry 0
      (by rw [hlow_len, hlc])
    have hfold_bit := carrying_add_carry_le B hB0 (w.take N) carry 0
      hlow_range hcarry (by omega) (by rw [hlow_len, hlc])
    set fold := carrying_add B (w.take N) carry 0 with hfolddef
    set temp := if fold.2 ≠ 0
      then (List.replicate N 0).set 0 1
      else List.replicate N 0 with htempdef
    have htemp_val : val B temp = fold.2 := by
      rw [htempdef]
      rcases Nat.eq_zero_or_pos fold.2 with h0 | h0
      · simp [h0, val_replicate_zero]
      · have h1 : fold.2 = 1 := by omega
        rw [h1]
        simp only [ne_eq, one_ne_zero, not_false_eq_true, if_true]
        rw [val_set_replicate B 1 0 N hN]
        simp
    have htemp_len : temp.length = N := by
      rw [htempdef]; split <;> simp
    have htemp_range : InRange B temp := by
      rw [htempdef]
      split
      · intro z hz
        rcases List.mem_or_eq_of_mem_set hz with hz2 | hz2
        · rw [List.eq_of_mem_replicate hz2]; omega
        · omega
      · intro z hz
        rw [List.eq_of_mem_replicate hz]; omega
    have hhigh2 := carrying_add_exact B hB0 (w.drop N) temp 0
      (by rw [hhigh_len, htemp_len])
    have hz0 : (carrying_add B (w.drop N) temp 0).2 = 0 := by
      have hlhs : val B (carrying_add B (w.drop N) temp 0).1 +
          B ^ (w.drop N).length * (carrying_add B (w.drop N) temp 0).2 =
          val B (w.drop N) + val B temp + 0 := hhigh2
      rw [hhigh_len, htemp_val] at hlhs
      have hsum : val B (w.drop N) + fold.2 + 0 < B ^ N := by omega
      by_contra hcon
      have h1 : 1 ≤ (carrying_add B (w.drop N) temp 0).2 := by omega
      have h2 : B ^ N * 1 ≤ B ^ N * (carrying_add B (w.drop N) temp 0).2 :=
        Nat.mul_le_mul_left _ h1
      omega
    clear_value temp fold w N
    refine ⟨?_, ?_, ?_, ?_, ?_, ?_⟩
    · have hhv : val B (carrying_add B (w.drop N) temp 0).1 =
          val B (w.drop N) + fold.2 := by
        have h := hhigh2
        rw [hhigh_len, htemp_val, hz0] at h
        omega
      rw [hhv]
      have hfv : val B fold.1 + B ^ N * fold.2 =
          val B (w.take N) + val B carry := by
        have h := hfold
        rw [hlow_len] at h
        omega
      have hprod : val B w = val B a * val B rhs := by
        rw [hwval, val_replicate_zero, Nat.add_zero]
      zify at hfv hsplit hprod ⊢
      linear_combination hfv - hsplit + hprod
    · rw [hfolddef, carrying_add_length B (w.take N) carry 0
        (by rw [hlow_len, hlc]), hlow_len]
    · rw [carrying_add_length B (w.drop N) temp 0
        (by rw [hhigh_len, htemp_len]), hhigh_len]
    · rw [hfolddef]
      exact carrying_add_in_range B hB0 _ _ _
    · exact carrying_add_in_range B hB0 _ _ _
    · rw [hwok, hz0]
      simp

end Cryp

namespace Cryp

/-- C1: for every limb radix `B` (`2^32` or `2^64` in the source, any
`B > 1` here), every width `N` and all `N`-limb integers `a`, `rhs`,
`carry`, `LimbInt::carrying_mul(a, rhs, carry)` returns a pair
`(low, high)` of `N`-limb integers with
`val low + B^N * val high = val a * val rhs + val carry` exactly, and
none of the internal overflow assertions can fire. -/
theorem carrying_mul_exact (B : Nat) (a rhs carry : List Nat) (hB : 1 < B)
    (hla : rhs.length = a.length) (hlc : carry.length = a.length)
    (ha : InRange B a) (hrhs : InRange B rhs) (hcarry : InRange B carry) :
    val B (carrying_mul B a rhs carry).1.1 +
        B ^ a.length * val B (carrying_mul B a rhs carry).1.2 =
      val B a * val B rhs + val B carry ∧
    (carrying_mul B a rhs carry).1.1.length = a.length ∧
    (carrying_mul B a rhs carry).1.2.length = a.length ∧
    InRange B (carrying_mul B a rhs carry).1.1 ∧
    InRange B (carrying_mul B a rhs carry).1.2 ∧
    (carrying_mul B a rhs carry).2 = true :=
  carrying_mul_spec B hB a rhs carry hla hlc ha hrhs hcarry

/-- Witness for C1 at the radix of the `u32` limb type, `N = 2`:
`a = 3 + 5·2^32`, `rhs = 2 + 7·2^32`, `carry = 1`. -/
theorem carrying_mul_exact_witness :
    val 4294967296 (carrying_mul 4294967296 [3, 5] [2, 7] [1, 0]).1.1 +
        4294967296 ^ ([3, 5] : List Nat).length *
          val 4294967296 (carrying_mul 4294967296 [3, 5] [2, 7] [1, 0]).1.2 =
      val 4294967296 [3, 5] * val 4294967296 [2, 7] +
        val 4294967296 [1, 0] ∧
    (carrying_mul 4294967296 [3, 5] [2, 7] [1, 0]).1.1.length =
      ([3, 5] : List Nat).length ∧
    (carrying_mul 4294967296 [3, 5] [2, 7] [1, 0]).1.2.length =
      ([3, 5] : List Nat).length ∧
    InRange 4294967296 (carrying_mul 4294967296 [3, 5] [2, 7] [1, 0]).1.1 ∧
    InRange 4294967296 (carrying_mul 4294967296 [3, 5] [2, 7] [1, 0]).1.2 ∧
    (carrying_mul 4294967296 [3, 5] [2, 7] [1, 0]).2 = true :=
  carrying_mul_exact 4294967296 [3, 5] [2, 7] [1, 0] (by decide) (by decide)
    (by decide) (by decide) (by decide) (by decide)

end Cryp

namespace Cryp

/-!
## Field addition / subtraction with conditional correction

`add_assign` and `sub_assign` are implemented, token for token, in both
`MontgomeryOperations` (src/cryp_alg/src/fields/montgomery.rs lines
136-160) and `GeneralReductionOperations`
(src/cryp_alg/src/fields/general_reduction.rs lines 83-107); we define
them once, over the modulus limb list.
-/

/-- `add_assign` (montgomery.rs lines 136-147, general_reduction.rs lines
83-94): ripple add, then a conditional correction selected by comparing
the raw carry with the borrow of the corrective subtraction. -/
def add_assign (B : Nat) (modulus lhs other : List Nat) : List Nat :=
  let d := carrying_add B lhs other 0
  let e := carrying_sub B d.1 modulus 0
  if d.2 = e.2 then e.1 else d.1

/-- `sub_assign` (montgomery.rs lines 149-160, general_reduction.rs lines
96-107): ripple subtract, then a conditional corrective addition of the
modulus selected by the raw borrow bit. -/
def sub_assign (B : Nat) (modulus lhs other : List Nat) : List Nat :=
  let d := carrying_sub B lhs other 0
  let e := carrying_add B d.1 modulus 0
  if d.2 = 0 then d.1 else e.1

/-- `add_assign` computes the canonical sum mod the modulus: for reduced
inputs the result is the unique representative of `a + b` below `m`. -/
theorem add_assign_spec (B : Nat) (hB : 1 < B) (modulus lhs other : List Nat)
    (hlm : lhs.length = modulus.length) (hlo : other.length = modulus.length)
    (hm : InRange B modulus) (hl : InRange B lhs) (ho : InRange B other)
    (hlv : val B lhs < val B modulus) (hov : val B other < val B modulus) :
    val B (add_assign B modulus lhs other) =
      (val B lhs + val B other) % val B modulus ∧
    (add_assign B modulus lhs other).length = modulus.length ∧
    InRange B (add_assign B modulus lhs other) := by
  have hB0 : 0 < B := by omega
  set m := val B modulus with hmdef
  have hm0 : 0 < m := by omega
  set N := modulus.length with hNdef
  have hdlen : (carrying_add B lhs other 0).1.length = N :=
    by rw [carrying_add_length B lhs other 0 (by omega), hlm]
  have hd := carrying_add_exact B hB0 lhs other 0 (by omega)
  rw [hlm] at hd
  have hdbit := carrying_add_carry_le B hB0 lhs other 0 hl ho (by omega)
    (by omega)
  have hdrange : InRange B (carrying_add B lhs other 0).1 :=
    carrying_add_in_range B hB0 lhs other 0
  have hdval : val B (carrying_add B lhs other 0).1 < B ^ N := by
    have := val_lt B (carrying_add B lhs other 0).1 hdrange
    rwa [hdlen] at this
  have he := carrying_sub_exact B hB0 (carrying_add B lhs other 0).1 modulus 0
    hdrange hm (by omega) (by rw [hdlen])
  have heb := carrying_sub_borrow_iff B hB0 (carrying_add B lhs other 0).1
    modulus 0 hdrange hm (by omega) (by rw [hdlen])
  rw [hdlen] at he
  have helen : (carrying_sub B (carrying_add B lhs other 0).1 modulus 0).1.length
      = N := by
    rw [carrying_sub_length B (carrying_add B lhs other 0).1 modulus 0
      (by omega), hdlen]
  have herange : InRange B (carrying_sub B (carrying_add B lhs other 0).1 modulus 0).1 :=
    carrying_sub_in_range B hB0 _ _ 0
  have hmlt : m < B ^ N := by
    have h := val_lt B modulus hm
    rw [← hNdef] at h
    omega
  have hsum : val B lhs + val B other < 2 * m := by omega
  refine ⟨?_, ?_, ?_⟩
  · simp only [add_assign]
    by_cases hc : (carrying_add B lhs other 0).2 =
        (carrying_sub B (carrying_add B lhs other 0).1 modulus 0).2
    · simp only [if_pos hc]
      -- the correction fires: result is d - m (+ B^N if the raw add carried)
      rcases Nat.lt_or_ge (val B lhs + val B other) (B ^ N) with hlt | hge
      · -- no raw carry; d = lhs + other and the branch requires m ≤ d
        have hd2 : (carrying_add B lhs other 0).2 = 0 := by
          by_contra hne
          have h1 : (carrying_add B lhs other 0).2 = 1 := by omega
          rw [h1] at hd
          omega
        have hdv : val B (carrying_add B lhs other 0).1 =
            val B lhs + val B other := by rw [hd2] at hd; omega
        rw [hd2] at hc
        rw [heb] at hc
        split at hc
        · omega
        · rename_i hge2
          rw [if_neg hge2] at heb
          rw [heb] at he
          have : val B (carrying_sub B (carrying_add B lhs other 0).1 modulus 0).1
              = val B lhs + val B other - m := by omega
          rw [this, hdv] at *
          rw [Nat.mod_eq_sub_mod (by omega), Nat.mod_eq_of_lt (by omega)]
      · -- raw carry fired: d = lhs + other - B^N < m, borrow fires too
        have hd2 : (carrying_add B lhs other 0).2 = 1 := by
          by_contra hne
          have h1 : (carrying_add B lhs other 0).2 = 0 := by omega
          rw [h1] at hd
          omega
        rw [hd2] at hd
        have hdv : val B (carrying_add B lhs other 0).1 =
            val B lhs + val B other - B ^ N := by omega
        have hdlt : val B (carrying_add B lhs other 0).1 < m := by omega
        rw [if_pos (by omega)] at heb
        rw [heb] at he
        have : val B (carrying_sub B (carrying_add B lhs other 0).1 modulus 0).1
            = val B lhs + val B other - m := by omega
        rw [this]
        rw [Nat.mod_eq_sub_mod (by omega), Nat.mod_eq_of_lt (by omega)]
    · simp only [if_neg hc]
      -- no correction: the raw sum is already reduced
      have hd2 : (carrying_add B lhs other 0).2 = 0 := by
        by_contra hne
        have h1 : (carrying_add B lhs other 0).2 = 1 := by omega
        rw [h1] at hd
        have hdv : val B (carrying_add B lhs other 0).1 =
            val B lhs + val B other - B ^ N := by omega
        have hdlt : val B (carrying_add B lhs other 0).1 < m := by omega
        rw [if_pos (by omega)] at heb
        exact hc (h1.trans heb.symm)
      rw [hd2] at hd hc
      have hdv : val B (carrying_add B lhs other 0).1 =
          val B lhs + val B other := by omega
      rw [heb] at hc
      split at hc
      · rw [hdv]
        rw [Nat.mod_eq_of_lt (by omega)]
      · omega
  · simp only [add_assign]
    split
    · exact helen
    · exact hdlen
  · simp only [add_assign]
    split
    · exact herange
    · exact hdrange

end Cryp

namespace Cryp

/-- `sub_assign` computes the canonical difference mod the modulus. -/
theorem sub_assign_spec (B : Nat) (hB : 1 < B) (modulus lhs other : List Nat)
    (hlm : lhs.length = modulus.length) (hlo : other.length = modulus.length)
    (hm : InRange B modulus) (hl : InRange B lhs) (ho : InRange B other)
    (hlv : val B lhs < val B modulus) (hov : val B other < val B modulus) :
    val B (sub_assign B modulus lhs other) =
      (val B lhs + val B modulus - val B other) % val B modulus ∧
    (sub_assign B modulus lhs other).length = modulus.length ∧
    InRange B (sub_assign B modulus lhs other) := by
  have hB0 : 0 < B := by omega
  set N := modulus.length with hNdef
  have hm0 : 0 < val B modulus := by omega
  have hmlt : val B modulus < B ^ N := by
    have h := val_lt B modulus hm
    rw [← hNdef] at h
    omega
  obtain ⟨hd, hdbit⟩ := carrying_sub_exact B hB0 lhs other 0 hl ho (by omega)
    (by omega)
  have hdb := carrying_sub_borrow_iff B hB0 lhs other 0 hl ho (by omega)
    (by omega)
  have hdlen : (carrying_sub B lhs other 0).1.length = N := by
    rw [carrying_sub_length B lhs other 0 (by omega), hlm]
  have hdrange : InRange B (carrying_sub B lhs other 0).1 :=
    carrying_sub_in_range B hB0 lhs other 0
  have hdval : val B (carrying_sub B lhs other 0).1 < B ^ N := by
    have h := val_lt B (carrying_sub B lhs other 0).1 hdrange
    rwa [hdlen] at h
  rw [hlm] at hd
  have he := carrying_add_exact B hB0 (carrying_sub B lhs other 0).1 modulus 0
    (by omega)
  rw [hdlen] at he
  have hebit := carrying_add_carry_le B hB0 (carrying_sub B lhs other 0).1
    modulus 0 hdrange hm (by omega) (by omega)
  have helen : (carrying_add B (carrying_sub B lhs other 0).1 modulus 0).1.length
      = N := by
    rw [carrying_add_length B (carrying_sub B lhs other 0).1 modulus 0
      (by omega), hdlen]
  have herange : InRange B (carrying_add B (carrying_sub B lhs other 0).1 modulus 0).1 :=
    carrying_add_in_range B hB0 _ _ 0
  have heval : val B (carrying_add B (carrying_sub B lhs other 0).1 modulus 0).1
      < B ^ N := by
    have h := val_lt B (carrying_add B (carrying_sub B lhs other 0).1 modulus 0).1
      herange
    rwa [helen] at h
  refine ⟨?_, ?_, ?_⟩
  · simp only [sub_assign]
    by_cases hc : (carrying_sub B lhs other 0).2 = 0
    · simp only [if_pos hc]
      rw [hc] at hd
      rw [hdb] at hc
      have hge : ¬ val B lhs < val B other + 0 := by
        by_contra hcon
        rw [if_pos hcon] at hc
        omega
      rw [Nat.mod_eq_sub_mod (by omega), Nat.mod_eq_of_lt (by omega)]
      omega
    · simp only [if_neg hc]
      have hc1 : (carrying_sub B lhs other 0).2 = 1 := by omega
      rw [hc1] at hd
      rw [hdb] at hc1
      have hlt : val B lhs < val B other + 0 := by
        by_contra hcon
        rw [if_neg hcon] at hc1
        omega
      rcases Nat.le_one_iff_eq_zero_or_eq_one.mp hebit with he2 | he2
      · rw [he2] at he
        omega
      · rw [he2] at he
        rw [Nat.mod_eq_of_lt (by omega)]
        omega
  · simp only [sub_assign]
    split
    · exact hdlen
    · exact helen
  · simp only [sub_assign]
    split
    · exact hdrange
    · exact herange

end Cryp

namespace Cryp

/-- C3: for both field strategies (`MontgomeryOperations` and
`GeneralReductionOperations`, whose `add_assign`/`sub_assign` bodies are
identical), on inputs strictly below the modulus, `add_assign` produces
the unique value congruent to `a + b` mod the modulus that is strictly
below it, and `sub_assign` the unique such value congruent to `a - b`;
the single conditional correction is selected by comparing carry bits. -/
theorem add_sub_assign_correct (B : Nat) (modulus lhs other : List Nat)
    (hB : 1 < B)
    (hlm : lhs.length = modulus.length) (hlo : other.length = modulus.length)
    (hm : InRange B modulus) (hl : InRange B lhs) (ho : InRange B other)
    (hlv : val B lhs < val B modulus) (hov : val B other < val B modulus) :
    val B (add_assign B modulus lhs other) ≡
      val B lhs + val B other [MOD val B modulus] ∧
    val B (add_assign B modulus lhs other) < val B modulus ∧
    ((val B (sub_assign B modulus lhs other) : Int) ≡
      (val B lhs : Int) - (val B other : Int) [ZMOD (val B modulus : Int)]) ∧
    val B (sub_assign B modulus lhs other) < val B modulus := by
  have hm0 : 0 < val B modulus := by omega
  obtain ⟨ha1, -, -⟩ := add_assign_spec B hB modulus lhs other hlm hlo hm hl
    ho hlv hov
  obtain ⟨hs1, -, -⟩ := sub_assign_spec B hB modulus lhs other hlm hlo hm hl
    ho hlv hov
  refine ⟨?_, ?_, ?_, ?_⟩
  · rw [ha1]
    exact Nat.mod_modEq _ _
  · rw [ha1]
    exact Nat.mod_lt _ hm0
  · rw [hs1]
    have h1 : ((val B lhs + val B modulus - val B other) % val B modulus : ℕ)
        ≡ (val B lhs + val B modulus - val B other : ℕ) [MOD val B modulus] :=
      Nat.mod_modEq _ _
    have h2 := Int.natCast_modEq_iff.mpr h1
    have h3 : ((val B lhs + val B modulus - val B other : ℕ) : ℤ) =
        (val B lhs : ℤ) + val B modulus - val B other := by
      have hle : val B other ≤ val B lhs + val B modulus := by omega
      push_cast [hle]
      ring
    have h4 : ((val B lhs : ℤ) + val B modulus - val B other) ≡
        (val B lhs : ℤ) - val B other [ZMOD (val B modulus : Int)] := by
      apply Int.ModEq.symm
      rw [Int.modEq_iff_dvd]
      exact ⟨1, by ring⟩
    exact (h2.trans (h3 ▸ h4))
  · rw [hs1]
    exact Nat.mod_lt _ hm0

/-- Witness for C3: radix `2^32`, modulus `19`, `lhs = 15`, `other = 7`. -/
theorem add_sub_assign_correct_witness :
    val 4294967296 (add_assign 4294967296 [19] [15] [7]) ≡
      val 4294967296 [15] + val 4294967296 [7] [MOD val 4294967296 [19]] ∧
    val 4294967296 (add_assign 4294967296 [19] [15] [7]) <
      val 4294967296 [19] ∧
    ((val 4294967296 (sub_assign 4294967296 [19] [15] [7]) : Int) ≡
      (val 4294967296 [15] : Int) - (val 4294967296 [7] : Int)
        [ZMOD (val 4294967296 [19] : Int)]) ∧
    val 4294967296 (sub_assign 4294967296 [19] [15] [7]) <
      val 4294967296 [19] :=
  add_sub_assign_correct 4294967296 [19] [15] [7] (by decide) (by decide)
    (by decide) (by decide) (by decide) (by decide) (by decide) (by decide)

end Cryp

namespace Cryp

/-!
## Montgomery reduction (src/cryp_alg/src/fields/montgomery.rs lines 33-71)

One REDC round (loop body, lines 42-58): `u = a_l[i] * MP mod B`; `umbi =
modulus * (u * B^i)` computed by `carrying_mul` with the single-limb list
`ubi`; then `umbi` is added into the running double-width accumulator,
the final carry of the high half being dropped (`let (a_1, _) = ...`).
-/

/-- One round of the REDC loop at index `i`. -/
def mont_round (B : Nat) (modulus : List Nat) (MP : Nat)
    (st : List Nat × List Nat) (i : Nat) : List Nat × List Nat :=
  let u := (mul_carry B (st.1.getD i 0) MP 0).1
  let ubi := (List.replicate modulus.length 0).set i u
  let umbi := (carrying_mul B modulus ubi (List.replicate modulus.length 0)).1
  let a0 := carrying_add B st.1 umbi.1 0
  let a1 := carrying_add B st.2 umbi.2 a0.2
  (a0.1, a1.1)

/-- `MontgomeryOperations::montgomery_reduction` (montgomery.rs lines
33-71): `N` REDC rounds, the checked `assert_eq!(a_l.limbs, [ZERO; N])`
returned as a `Bool`, and a final conditional subtraction of the modulus
selected by the borrow flag. -/
def montgomery_reduction (B : Nat) (modulus : List Nat) (MP : Nat)
    (element : List Nat × List Nat) : List Nat × Bool :=
  let st := (List.range modulus.length).foldl (mont_round B modulus MP) element
  let lowZero := st.1 == List.replicate modulus.length 0
  let e := carrying_sub B st.2 modulus 0
  (if e.2 = 0 then e.1 else st.2, lowZero)

/-- Congruence helper: an exact identity `x + c = y` with `Q ∣ c` gives
`x ≡ y [MOD Q]`. -/
theorem modeq_of_exact_add (x c y Q : Nat) (h : x + c = y) (hd : Q ∣ c) :
    x ≡ y [MOD Q] := by
  subst h
  calc x ≡ x + 0 [MOD Q] := by rw [Nat.add_zero]
    _ ≡ x + c [MOD Q] :=
      Nat.ModEq.add_left x ((Nat.modEq_zero_iff_dvd).mpr hd).symm

end Cryp

namespace Cryp

/-- Specification of one REDC round at index `i`: lengths and ranges are
preserved, the low half becomes divisible by `B^(i+1)`, and the exact
double-width value changes by adding `modulus * u * B^i`, up to one
possibly dropped carry of weight `B^(2N)`. -/
theorem mont_round_spec (B : Nat) (hB : 1 < B) (modulus : List Nat) (MP : Nat)
    (hm : InRange B modulus)
    (hmp : (val B modulus * MP + 1) % B = 0)
    (st : List Nat × List Nat) (i : Nat) (hi : i < modulus.length)
    (hl1 : st.1.length = modulus.length) (hl2 : st.2.length = modulus.length)
    (hr1 : InRange B st.1) (hr2 : InRange B st.2)
    (hz : val B st.1 % B ^ i = 0) :
    (mont_round B modulus MP st i).1.length = modulus.length ∧
    (mont_round B modulus MP st i).2.length = modulus.length ∧
    InRange B (mont_round B modulus MP st i).1 ∧
    InRange B (mont_round B modulus MP st i).2 ∧
    val B (mont_round B modulus MP st i).1 % B ^ (i + 1) = 0 ∧
    ∃ u c, u < B ∧ c ≤ 1 ∧
      val B (mont_round B modulus MP st i).1 +
          B ^ modulus.length * val B (mont_round B modulus MP st i).2 +
          (B ^ modulus.length * B ^ modulus.length) * c =
        val B st.1 + B ^ modulus.length * val B st.2 +
          val B modulus * (u * B ^ i) := by
  have hB0 : 0 < B := by omega
  set N := modulus.length with hNdef
  set u := (mul_carry B (st.1.getD i 0) MP 0).1 with hudef
  have hu : u < B := Nat.mod_lt _ hB0
  set ubi := (List.replicate N 0).set i u with hubidef
  have hubilen : ubi.length = N := by
    rw [hubidef, List.length_set, List.length_replicate]
  have hubirange : InRange B ubi := by
    intro z hz2
    rw [hubidef] at hz2
    rcases List.mem_or_eq_of_mem_set hz2 with h | h
    · rw [List.eq_of_mem_replicate h]; omega
    · omega
  have hubival : val B ubi = u * B ^ i := by
    rw [hubidef]
    exact val_set_replicate B u i N hi
  obtain ⟨hmul, hmlen1, hmlen2, hmr1, hmr2, -⟩ :=
    carrying_mul_spec B hB modulus ubi (List.replicate N 0)
      (by rw [hubilen]) (by simp)
      hm hubirange (fun z hz2 => by rw [List.eq_of_mem_replicate hz2]; omega)
  rw [hubival, val_replicate_zero, Nat.add_zero] at hmul
  set umbi := (carrying_mul B modulus ubi (List.replicate N 0)).1 with humbidef
  have ha0 := carrying_add_exact B hB0 st.1 umbi.1 0 (by omega)
  have ha0bit := carrying_add_carry_le B hB0 st.1 umbi.1 0 hr1 hmr1
    (by omega) (by omega)
  have ha0len : (carrying_add B st.1 umbi.1 0).1.length = N := by
    rw [carrying_add_length B st.1 umbi.1 0 (by omega), hl1]
  have ha0range : InRange B (carrying_add B st.1 umbi.1 0).1 :=
    carrying_add_in_range B hB0 _ _ 0
  have ha1 := carrying_add_exact B hB0 st.2 umbi.2
    (carrying_add B st.1 umbi.1 0).2 (by omega)
  have ha1bit := carrying_add_carry_le B hB0 st.2 umbi.2
    (carrying_add B st.1 umbi.1 0).2 hr2 hmr2 ha0bit (by omega)
  have ha1len : (carrying_add B st.2 umbi.2
      (carrying_add B st.1 umbi.1 0).2).1.length = N := by
    rw [carrying_add_length B st.2 umbi.2 _ (by omega), hl2]
  have ha1range : InRange B (carrying_add B st.2 umbi.2
      (carrying_add B st.1 umbi.1 0).2).1 :=
    carrying_add_in_range B hB0 _ _ _
  rw [hl1] at ha0
  rw [hl2] at ha1
  have hstep : mont_round B modulus MP st i =
      ((carrying_add B st.1 umbi.1 0).1,
       (carrying_add B st.2 umbi.2 (carrying_add B st.1 umbi.1 0).2).1) := by
    rw [mont_round]
  rw [hstep]
  refine ⟨ha0len, ha1len, ha0range, ha1range, ?_, ?_⟩
  · -- the low half is now divisible by B^(i+1)
    have hdvd1 : B ^ (i + 1) ∣ B ^ N * (carrying_add B st.1 umbi.1 0).2 :=
      Dvd.dvd.mul_right (pow_dvd_pow B (by omega)) _
    have e1 : val B (carrying_add B st.1 umbi.1 0).1 ≡
        val B st.1 + val B umbi.1 [MOD B ^ (i + 1)] :=
      modeq_of_exact_add _ _ _ _ (by omega) hdvd1
    have hdvd2 : B ^ (i + 1) ∣ B ^ N * val B umbi.2 :=
      Dvd.dvd.mul_right (pow_dvd_pow B (by omega)) _
    have e2 : val B umbi.1 ≡ val B modulus * (u * B ^ i) [MOD B ^ (i + 1)] :=
      modeq_of_exact_add _ _ _ _ hmul hdvd2
    have e3 : val B (carrying_add B st.1 umbi.1 0).1 ≡
        val B st.1 + val B modulus * (u * B ^ i) [MOD B ^ (i + 1)] :=
      e1.trans (Nat.ModEq.add_left _ e2)
    have hfin : (val B st.1 + val B modulus * (u * B ^ i)) % B ^ (i + 1) = 0 := by
      obtain ⟨w, hw⟩ : B ^ i ∣ val B st.1 := (Nat.modEq_zero_iff_dvd).mp hz
      have hgd : st.1.getD i 0 = w % B := by
        rw [getD_eq_val_div_mod B hB st.1 hr1 i, hw,
          Nat.mul_div_cancel_left w (by positivity)]
      have huw : u = (w % B) * MP % B := by
        rw [hudef, mul_carry, hgd]
        simp
      have hmod : (w + val B modulus * u) % B = 0 := by
        have s1 : u ≡ w * MP [MOD B] := by
          rw [huw]
          calc (w % B) * MP % B ≡ (w % B) * MP [MOD B] := Nat.mod_modEq _ _
            _ ≡ w * MP [MOD B] := (Nat.mod_modEq w B).mul_right MP
        have s2 : w + val B modulus * u ≡
            w + val B modulus * (w * MP) [MOD B] :=
          Nat.ModEq.add_left w (Nat.ModEq.mul_left _ s1)
        have s3 : w + val B modulus * (w * MP) = w * (val B modulus * MP + 1) := by
          ring
        have s4 : w * (val B modulus * MP + 1) ≡ 0 [MOD B] := by
          have hd : B ∣ val B modulus * MP + 1 :=
            (Nat.modEq_zero_iff_dvd).mp hmp
          exact (Nat.modEq_zero_iff_dvd).mpr (Dvd.dvd.mul_left hd w)
        have := (s2.trans (s3 ▸ s4))
        simpa using this
      have hsplit : val B st.1 + val B modulus * (u * B ^ i) =
          B ^ i * (w + val B modulus * u) := by
        rw [hw]; ring
      rw [hsplit, pow_succ, mul_comm (B ^ i) B]
      obtain ⟨t, ht⟩ : B ∣ w + val B modulus * u :=
        (Nat.modEq_zero_iff_dvd).mp hmod
      rw [ht]
      have : B ^ i * (B * t) = B * B ^ i * t := by ring
      rw [this, Nat.mul_mod_right]
    calc val B (carrying_add B st.1 umbi.1 0).1 % B ^ (i + 1)
        = (val B st.1 + val B modulus * (u * B ^ i)) % B ^ (i + 1) := e3
      _ = 0 := hfin
  · refine ⟨u, (carrying_add B st.2 umbi.2
      (carrying_add B st.1 umbi.1 0).2).2, hu, ha1bit, ?_⟩
    zify at ha0 ha1 hmul ⊢
    linear_combination ha0 + (B : Int) ^ N * ha1 + hmul

end Cryp

namespace Cryp

/-- Invariant of the REDC loop after `k` of the `N` rounds. -/
theorem mont_fold_invariant (B : Nat) (hB : 1 < B) (modulus : List Nat)
    (MP : Nat) (hm : InRange B modulus)
    (hmp : (val B modulus * MP + 1) % B = 0)
    (elem : List Nat × List Nat)
    (hl1 : elem.1.length = modulus.length)
    (hl2 : elem.2.length = modulus.length)
    (hr1 : InRange B elem.1) (hr2 : InRange B elem.2) :
    ∀ k, k ≤ modulus.length →
    ((List.range k).foldl (mont_round B modulus MP) elem).1.length =
      modulus.length ∧
    ((List.range k).foldl (mont_round B modulus MP) elem).2.length =
      modulus.length ∧
    InRange B ((List.range k).foldl (mont_round B modulus MP) elem).1 ∧
    InRange B ((List.range k).foldl (mont_round B modulus MP) elem).2 ∧
    val B ((List.range k).foldl (mont_round B modulus MP) elem).1 % B ^ k = 0 ∧
    ∃ t q, t < B ^ k ∧
      val B ((List.range k).foldl (mont_round B modulus MP) elem).1 +
          B ^ modulus.length *
            val B ((List.range k).foldl (mont_round B modulus MP) elem).2 +
          (B ^ modulus.length * B ^ modulus.length) * q =
        val B elem.1 + B ^ modulus.length * val B elem.2 +
          val B modulus * t := by
  intro k
  induction k with
  | zero =>
      intro hk
      refine ⟨by simpa using hl1, by simpa using hl2, by simpa using hr1,
        by simpa using hr2, by simp [Nat.mod_one], 0, 0, by simp, by simp⟩
  | succ k ih =>
      intro hk
      obtain ⟨il1, il2, ir1, ir2, iz, t, q, htlt, hteq⟩ := ih (by omega)
      set st := (List.range k).foldl (mont_round B modulus MP) elem with hstdef
      have hfold : (List.range (k + 1)).foldl (mont_round B modulus MP) elem =
          mont_round B modulus MP st k := by
        rw [List.range_succ, List.foldl_append, List.foldl_cons, List.foldl_nil]
      obtain ⟨r1, r2, r3, r4, r5, u, c, hu, hc, hround⟩ :=
        mont_round_spec B hB modulus MP hm hmp st k (by omega) il1 il2 ir1 ir2 iz
      rw [hfold]
      refine ⟨r1, r2, r3, r4, r5, t + u * B ^ k, q + c, ?_, ?_⟩
      · have h1 : u * B ^ k ≤ (B - 1) * B ^ k :=
          Nat.mul_le_mul_right _ (by omega)
        have h2 : B ^ (k + 1) = B * B ^ k := by ring
        have h3 : (B - 1) * B ^ k + B ^ k = B * B ^ k := by
          cases B with
          | zero => omega
          | succ n => simp [Nat.succ_sub_one]; ring
        omega
      · zify at hteq hround ⊢
        linear_combination hround + hteq

end Cryp

namespace Cryp

/-- Master specification of `montgomery_reduction`: for any valid
`(modulus, MP)` pair and double-width input below `modulus * B^N`, the
result is below the modulus, the checked low-half-zero assertion holds,
and — provided the modulus additionally leaves headroom for the one
dropped carry, `2 * modulus ≤ B^N` — the result times `B^N` is congruent
to the input. -/
theorem montgomery_reduction_spec (B : Nat) (hB : 1 < B) (modulus : List Nat)
    (MP : Nat) (hm : InRange B modulus) (hm0 : 0 < val B modulus)
    (hmp : (val B modulus * MP + 1) % B = 0)
    (elem : List Nat × List Nat)
    (hl1 : elem.1.length = modulus.length)
    (hl2 : elem.2.length = modulus.length)
    (hr1 : InRange B elem.1) (hr2 : InRange B elem.2)
    (hA : val B elem.1 + B ^ modulus.length * val B elem.2 <
      val B modulus * B ^ modulus.length) :
    (montgomery_reduction B modulus MP elem).1.length = modulus.length ∧
    InRange B (montgomery_reduction B modulus MP elem).1 ∧
    val B (montgomery_reduction B modulus MP elem).1 < val B modulus ∧
    (montgomery_reduction B modulus MP elem).2 = true ∧
    (2 * val B modulus ≤ B ^ modulus.length →
      (val B (montgomery_reduction B modulus MP elem).1 *
          B ^ modulus.length) % val B modulus =
        (val B elem.1 + B ^ modulus.length * val B elem.2) % val B modulus) := by
  have hB0 : 0 < B := by omega
  set N := modulus.length with hNdef
  set m := val B modulus with hmdef
  obtain ⟨il1, il2, ir1, ir2, iz, t, q, htlt, hteq⟩ :=
    mont_fold_invariant B hB modulus MP hm hmp elem hl1 hl2 hr1 hr2 N
      (le_refl _)
  simp only [← hNdef, ← hmdef] at il1 il2 ir1 ir2 iz hteq htlt
  set st := (List.range N).foldl (mont_round B modulus MP) elem with hstdef
  have hP0 : 0 < B ^ N := by positivity
  have hst1val : val B st.1 = 0 := by
    have h := val_lt B st.1 ir1
    rw [il1] at h
    rw [← Nat.mod_eq_of_lt h]
    exact iz
  have hst1eq : st.1 = List.replicate N 0 := by
    have h := eq_replicate_zero_of_val_eq_zero B hB0 st.1 hst1val
    rwa [il1] at h
  rw [hst1val] at hteq
  have hst2lt : val B st.2 < 2 * m := by
    have h1 : B ^ N * val B st.2 ≤ 0 + B ^ N * val B st.2 +
        (B ^ N * B ^ N) * q := by omega
    have h2 : m * t ≤ m * B ^ N := by
      apply Nat.mul_le_mul_left
      omega
    have h3 : B ^ N * val B st.2 < 2 * m * B ^ N := by
      calc B ^ N * val B st.2 ≤ val B elem.1 + B ^ N * val B elem.2 + m * t :=
            by omega
        _ < m * B ^ N + m * B ^ N := by omega
        _ = 2 * m * B ^ N := by ring
    have h4 : B ^ N * val B st.2 < B ^ N * (2 * m) := by
      calc B ^ N * val B st.2 < 2 * m * B ^ N := h3
        _ = B ^ N * (2 * m) := by ring
    exact Nat.lt_of_mul_lt_mul_left h4
  have he := carrying_sub_exact B hB0 st.2 modulus 0 ir2 hm (by omega)
    (by omega)
  have heb := carrying_sub_borrow_iff B hB0 st.2 modulus 0 ir2 hm (by omega)
    (by omega)
  have helen : (carrying_sub B st.2 modulus 0).1.length = N := by
    rw [carrying_sub_length B st.2 modulus 0 (by omega), il2]
  have herange : InRange B (carrying_sub B st.2 modulus 0).1 :=
    carrying_sub_in_range B hB0 _ _ 0
  rw [il2] at he
  have hred : montgomery_reduction B modulus MP elem =
      (if (carrying_sub B st.2 modulus 0).2 = 0
        then (carrying_sub B st.2 modulus 0).1 else st.2,
       st.1 == List.replicate N 0) := by
    rw [montgomery_reduction]
  rw [hred]
  have hflag : (st.1 == List.replicate N 0) = true := by
    rw [hst1eq]
    simp
  have hresmod : ∃ r, (if (carrying_sub B st.2 modulus 0).2 = 0
      then (carrying_sub B st.2 modulus 0).1 else st.2) = r ∧
      val B r < m ∧ r.length = N ∧ InRange B r ∧ val B r ≡ val B st.2 [MOD m] := by
    by_cases hcase : (carrying_sub B st.2 modulus 0).2 = 0
    · refine ⟨(carrying_sub B st.2 modulus 0).1, by rw [if_pos hcase], ?_, helen,
        herange, ?_⟩
      · rw [hcase] at he
        omega
      · rw [hcase] at he
        have hv : val B (carrying_sub B st.2 modulus 0).1 = val B st.2 - m := by
          omega
        have hge : m ≤ val B st.2 := by
          rw [heb] at hcase
          by_cases h2 : val B st.2 < m + 0
          · rw [if_pos h2] at hcase; omega
          · omega
        rw [hv]
        exact modeq_of_exact_add (val B st.2 - m) m (val B st.2) m
          (by omega) (dvd_refl m)
    · refine ⟨st.2, by rw [if_neg hcase], ?_, il2, ir2, Nat.ModEq.refl _⟩
      rw [heb] at hcase
      by_cases h2 : val B st.2 < m + 0
      · omega
      · rw [if_neg h2] at hcase
        omega
  obtain ⟨r, hreq, hrlt, hrlen, hrrange, hrmod⟩ := hresmod
  rw [hreq]
  refine ⟨hrlen, hrrange, hrlt, hflag, ?_⟩
  intro hspace
  have hq0 : q = 0 := by
    by_contra hq
    have h1 : 1 ≤ q := by omega
    have h2 : B ^ N * B ^ N ≤ (B ^ N * B ^ N) * q :=
      Nat.le_mul_of_pos_right _ (by omega)
    have h3 : m * B ^ N + m * B ^ N ≤ B ^ N * B ^ N := by
      have h5 := Nat.mul_le_mul_right (B ^ N) hspace
      have heq : 2 * m * B ^ N = m * B ^ N + m * B ^ N := by ring
      omega
    have h4 : m * t < m * B ^ N := by
      rcases Nat.eq_zero_or_pos m with h | h
      · omega
      · exact Nat.mul_lt_mul_of_le_of_lt (le_refl m) htlt h
    omega
  rw [hq0] at hteq
  simp only [Nat.mul_zero, Nat.add_zero, Nat.zero_add] at hteq
  -- B^N * val st.2 = A + m * t exactly
  have hcong : val B r * B ^ N ≡
      val B elem.1 + B ^ N * val B elem.2 [MOD m] := by
    calc val B r * B ^ N ≡ val B st.2 * B ^ N [MOD m] := hrmod.mul_right _
      _ = val B elem.1 + B ^ N * val B elem.2 + m * t := by
          rw [mul_comm]; omega
      _ ≡ val B elem.1 + B ^ N * val B elem.2 + 0 [MOD m] :=
          Nat.ModEq.add_left _ ((Nat.modEq_zero_iff_dvd).mpr ⟨t, rfl⟩)
      _ = val B elem.1 + B ^ N * val B elem.2 := by omega
  exact hcong

end Cryp

namespace Cryp

/-- C2 counterexample: radix `B = 2^32` (the `u32` limb type), width
`N = 1`, modulus `m = 2^32 - 1` (odd), `MP = 1 = -m⁻¹ mod B`, input
`(2^32 - 1, 2^32 - 2)` of value `m * B - 1 < m * B`.  All the claim's
premises hold — the modulus is odd, `MP` is valid, the input is below
`MODULUS * B^N`, and the checked low-half assertion does hold — yet the
returned value `2^32 - 3` is *not* congruent to `input * R⁻¹`
(equivalently `result * B ≢ input mod m`): the final carry of the high
half, dropped at `let (a_1, _)` in the round, is lost. -/
theorem montgomery_reduction_counterexample :
    val 4294967296 [4294967295] % 2 = 1 ∧
    (val 4294967296 [4294967295] * 1 + 1) % 4294967296 = 0 ∧
    val 4294967296 [4294967295] + 4294967296 ^ 1 * val 4294967296 [4294967294]
      < val 4294967296 [4294967295] * 4294967296 ^ 1 ∧
    (montgomery_reduction 4294967296 [4294967295] 1
      ([4294967295], [4294967294])).2 = true ∧
    ¬ (val 4294967296 (montgomery_reduction 4294967296 [4294967295] 1
          ([4294967295], [4294967294])).1 * 4294967296 ^ 1 %
        val 4294967296 [4294967295] =
      (val 4294967296 [4294967295] + 4294967296 ^ 1 *
          val 4294967296 [4294967294]) %
        val 4294967296 [4294967295]) := by
  decide

/-- C2 (amended): with valid Montgomery parameters and, additionally,
`2 * MODULUS ≤ B^N` (headroom for the dropped high carry),
`montgomery_reduction` of any double-width input below `MODULUS * B^N`
leaves the low half exactly zero after the `N` REDC rounds (the checked
assertion holds), and returns an `N`-limb value strictly below the
modulus and congruent to the input times `R⁻¹` (stated as
`result * B^N ≡ input mod MODULUS`), the final correction being one
conditional subtraction selected by the borrow flag. -/
theorem montgomery_reduction_correct (B : Nat) (modulus : List Nat) (MP : Nat)
    (elem : List Nat × List Nat) (hB : 1 < B)
    (hm : InRange B modulus) (hm0 : 0 < val B modulus)
    (hmp : (val B modulus * MP + 1) % B = 0)
    (hl1 : elem.1.length = modulus.length)
    (hl2 : elem.2.length = modulus.length)
    (hr1 : InRange B elem.1) (hr2 : InRange B elem.2)
    (hA : val B elem.1 + B ^ modulus.length * val B elem.2 <
      val B modulus * B ^ modulus.length)
    (hspace : 2 * val B modulus ≤ B ^ modulus.length) :
    (montgomery_reduction B modulus MP elem).2 = true ∧
    (montgomery_reduction B modulus MP elem).1.length = modulus.length ∧
    val B (montgomery_reduction B modulus MP elem).1 < val B modulus ∧
    (val B (montgomery_reduction B modulus MP elem).1 * B ^ modulus.length) %
        val B modulus =
      (val B elem.1 + B ^ modulus.length * val B elem.2) % val B modulus := by
  obtain ⟨h1, h2, h3, h4, h5⟩ := montgomery_reduction_spec B hB modulus MP hm
    hm0 hmp elem hl1 hl2 hr1 hr2 hA
  exact ⟨h4, h1, h3, h5 hspace⟩

/-- Witness for the amended C2: `B = 2^32`, `N = 1`, modulus `5`,
`MP = -5⁻¹ mod 2^32 = 858993459`, input `(7, 2)`. -/
theorem montgomery_reduction_correct_witness :
    (montgomery_reduction 4294967296 [5] 858993459 ([7], [2])).2 = true ∧
    (montgomery_reduction 4294967296 [5] 858993459 ([7], [2])).1.length =
      ([5] : List Nat).length ∧
    val 4294967296 (montgomery_reduction 4294967296 [5] 858993459
      ([7], [2])).1 < val 4294967296 [5] ∧
    (val 4294967296 (montgomery_reduction 4294967296 [5] 858993459
        ([7], [2])).1 * 4294967296 ^ ([5] : List Nat).length) %
        val 4294967296 [5] =
      (val 4294967296 [7] + 4294967296 ^ ([5] : List Nat).length *
          val 4294967296 [2]) % val 4294967296 [5] :=
  montgomery_reduction_correct 4294967296 [5] 858993459 ([7], [2])
    (by decide) (by decide) (by decide) (by decide) (by decide) (by decide)
    (by decide) (by decide) (by decide) (by decide)

end Cryp

namespace Cryp

/-!
## `LimbInt::le` (limbint.rs lines 33-49)

The "aspirationally constant time" comparison walks the limbs from most
significant to least significant carrying a `(res, flag)` state: at the
first (most significant) differing limb pair it records `self[i] <
other[i]` and clears the flag; later differing pairs only update a dummy.
We fold over the reversed limb-pair list with exactly that state.
-/

/-- One iteration of the `le` loop. -/
def le_step (st : Bool × Bool) (p : Nat × Nat) : Bool × Bool :=
  if p.1 ≠ p.2 then (if st.2 then (decide (p.1 < p.2), false) else st) else st

/-- `LimbInt::le` (limbint.rs lines 33-49). -/
def le (self other : List Nat) : Bool :=
  (((self.zip other).reverse).foldl le_step (true, true)).1

/-- Big-endian lexicographic comparison; the `le` loop computes it. -/
def lexLeBE : List (Nat × Nat) → Bool
  | [] => true
  | p :: ps => if p.1 = p.2 then lexLeBE ps else decide (p.1 < p.2)

theorem le_fold_flag_false (ps : List (Nat × Nat)) (r : Bool) :
    ps.foldl le_step (r, false) = (r, false) := by
  induction ps with
  | nil => rfl
  | cons p ps ih =>
      rw [List.foldl_cons]
      have : le_step (r, false) p = (r, false) := by
        simp only [le_step]
        split <;> rfl
      rw [this, ih]

theorem le_fold_flag_true (ps : List (Nat × Nat)) (r : Bool) :
    (ps.foldl le_step (r, true)).1 =
      if ∀ p ∈ ps, p.1 = p.2 then r else lexLeBE ps := by
  induction ps generalizing r with
  | nil => simp [lexLeBE]
  | cons p ps ih =>
      rw [List.foldl_cons]
      by_cases hp : p.1 = p.2
      · have hstep : le_step (r, true) p = (r, true) := by
          simp [le_step, hp]
        rw [hstep, ih]
        have hiff : (∀ q ∈ p :: ps, q.1 = q.2) ↔ (∀ q ∈ ps, q.1 = q.2) := by
          constructor
          · intro h q hq
            exact h q (List.mem_cons_of_mem p hq)
          · intro h q hq
            rcases List.mem_cons.mp hq with rfl | hq
            · exact hp
            · exact h q hq
        simp only [lexLeBE, if_pos hp]
        by_cases hall : ∀ q ∈ ps, q.1 = q.2
        · rw [if_pos hall, if_pos (hiff.mpr hall)]
        · rw [if_neg hall, if_neg (fun hcon => hall (hiff.mp hcon))]
      · have hstep : le_step (r, true) p = (decide (p.1 < p.2), false) := by
          simp [le_step, hp]
        rw [hstep, le_fold_flag_false]
        have hnall : ¬ ∀ q ∈ p :: ps, q.1 = q.2 :=
          fun hcon => hp (hcon p (List.mem_cons_self p ps))
        rw [if_neg hnall]
        simp [lexLeBE, hp]

theorem lexLeBE_append (L M : List (Nat × Nat)) :
    lexLeBE (L ++ M) =
      if ∀ p ∈ L, p.1 = p.2 then lexLeBE M else lexLeBE L := by
  induction L with
  | nil => simp
  | cons p L ih =>
      have hiff : (∀ q ∈ p :: L, q.1 = q.2) ↔
          (p.1 = p.2 ∧ ∀ q ∈ L, q.1 = q.2) := by
        constructor
        · intro h
          exact ⟨h p (List.mem_cons_self p L),
            fun q hq => h q (List.mem_cons_of_mem p hq)⟩
        · intro h q hq
          rcases List.mem_cons.mp hq with rfl | hq
          · exact h.1
          · exact h.2 q hq
      by_cases hp : p.1 = p.2
      · have h1 : lexLeBE ((p :: L) ++ M) = lexLeBE (L ++ M) := by
          simp [lexLeBE, hp]
        rw [h1, ih]
        by_cases hall : ∀ q ∈ L, q.1 = q.2
        · rw [if_pos hall, if_pos (hiff.mpr ⟨hp, hall⟩)]
        · rw [if_neg hall, if_neg (fun hcon => hall (hiff.mp hcon).2)]
          simp [lexLeBE, hp]
      · have h1 : lexLeBE ((p :: L) ++ M) = decide (p.1 < p.2) := by
          simp [lexLeBE, hp]
        have h2 : lexLeBE (p :: L) = decide (p.1 < p.2) := by
          simp [lexLeBE, hp]
        have hnall : ¬ ∀ q ∈ p :: L, q.1 = q.2 :=
          fun hcon => hp (hiff.mp hcon).1
        rw [h1, if_neg hnall, h2]

/-- Equal-length lists with pairwise-equal zips are equal. -/
theorem eq_of_zip_eq (xs ys : List Nat) (hlen : xs.length = ys.length)
    (h : ∀ p ∈ xs.zip ys, p.1 = p.2) : xs = ys := by
  induction xs generalizing ys with
  | nil => cases ys with
    | nil => rfl
    | cons y ys => simp at hlen
  | cons x xs ih =>
      cases ys with
      | nil => simp at hlen
      | cons y ys =>
          have hx : x = y := h (x, y) (by simp [List.zip_cons_cons])
          have hxs : xs = ys := ih ys (by simpa using hlen)
            (fun p hp => h p (by simp [List.zip_cons_cons, hp]))
          rw [hx, hxs]

/-- In-range equal-length limb lists with equal values are equal
(uniqueness of the radix-`B` representation). -/
theorem val_injective (B : Nat) (hB : 0 < B) (xs ys : List Nat)
    (hlen : xs.length = ys.length) (hx : InRange B xs) (hy : InRange B ys)
    (h : val B xs = val B ys) : xs = ys := by
  induction xs generalizing ys with
  | nil => cases ys with
    | nil => rfl
    | cons y ys => simp at hlen
  | cons x xs ih =>
      cases ys with
      | nil => simp at hlen
      | cons y ys =>
          have hx0 : x < B := hx x (by simp)
          have hy0 : y < B := hy y (by simp)
          simp only [val_cons] at h
          have hxy : x = y := by
            have h1 : x % B = y % B := by
              have := congrArg (· % B) h
              simpa [Nat.add_mul_mod_self_left] using this
            rwa [Nat.mod_eq_of_lt hx0, Nat.mod_eq_of_lt hy0] at h1
          subst hxy
          have hval : val B xs = val B ys := by
            have h2 : B * val B xs = B * val B ys := by omega
            exact Nat.eq_of_mul_eq_mul_left hB h2
          rw [ih ys (by simpa using hlen) (fun z hz => hx z (by simp [hz]))
            (fun z hz => hy z (by simp [hz])) hval]

/-- Every pair of the zip of a list with itself is diagonal. -/
theorem zip_self_eq (xs : List Nat) : ∀ p ∈ xs.zip xs, p.1 = p.2 := by
  induction xs with
  | nil => intro p hp; simp at hp
  | cons x xs ih =>
      intro p hp
      rw [List.zip_cons_cons] at hp
      rcases List.mem_cons.mp hp with rfl | hp
      · rfl
      · exact ih p hp

/-- Big-endian lexicographic comparison of limb lists is numeric `≤`. -/
theorem lexLeBE_correct (B : Nat) (hB : 0 < B) :
    ∀ xs ys : List Nat, xs.length = ys.length →
    InRange B xs → InRange B ys →
    lexLeBE ((xs.zip ys).reverse) = decide (val B xs ≤ val B ys) := by
  intro xs
  induction xs with
  | nil =>
      intro ys hlen hx hy
      cases ys with
      | nil => simp [lexLeBE, val]
      | cons y ys => simp at hlen
  | cons x xs ih =>
      intro ys hlen hx hy
      cases ys with
      | nil => simp at hlen
      | cons y ys =>
          have hx0 : x < B := hx x (by simp)
          have hy0 : y < B := hy y (by simp)
          have hxs : InRange B xs := fun z hz => hx z (by simp [hz])
          have hys : InRange B ys := fun z hz => hy z (by simp [hz])
          have hlen2 : xs.length = ys.length := by simpa using hlen
          rw [List.zip_cons_cons, List.reverse_cons, lexLeBE_append]
          by_cases hall : ∀ p ∈ ((xs.zip ys).reverse), p.1 = p.2
          · have hxy : xs = ys := eq_of_zip_eq xs ys hlen2
              (fun p hp => hall p (by simp [hp]))
            subst hxy
            rw [if_pos hall]
            simp only [lexLeBE, val_cons]
            by_cases hxy2 : x = y
            · simp [hxy2]
            · rw [if_neg hxy2]
              rcases Nat.lt_or_ge x y with h | h
              · have h2 : x + B * val B xs ≤ y + B * val B xs := by omega
                simp [h, h2]
              · have hgt : y < x := by omega
                have h2 : ¬ (x + B * val B xs ≤ y + B * val B xs) := by omega
                have h3 : ¬ (x < y) := by omega
                simp [h2, h3]
          · rw [if_neg hall, ih ys hlen2 hxs hys]
            have hne : val B xs ≠ val B ys := by
              intro hcon
              apply hall
              have hxy : xs = ys :=
                val_injective B hB xs ys hlen2 hxs hys hcon
              subst hxy
              intro p hp
              exact zip_self_eq xs p (List.mem_reverse.mp hp)
            simp only [val_cons]
            rcases Nat.lt_or_ge (val B xs) (val B ys) with h | h
            · have h1 : val B xs + 1 ≤ val B ys := h
              have h2 : B * (val B xs + 1) ≤ B * val B ys :=
                Nat.mul_le_mul_left _ h1
              have h3 : x + B * val B xs ≤ y + B * val B ys := by
                have : B * val B xs + B ≤ B * val B ys := by
                  calc B * val B xs + B = B * (val B xs + 1) := by ring
                    _ ≤ B * val B ys := h2
                omega
              simp [Nat.le_of_lt h, h3]
            · have hgt : val B ys < val B xs := by omega
              have h1 : val B ys + 1 ≤ val B xs := hgt
              have h2 : B * (val B ys + 1) ≤ B * val B xs :=
                Nat.mul_le_mul_left _ h1
              have h3 : ¬ (x + B * val B xs ≤ y + B * val B ys) := by
                have : B * val B ys + B ≤ B * val B xs := by
                  calc B * val B ys + B = B * (val B ys + 1) := by ring
                    _ ≤ B * val B xs := h2
                omega
              have h4 : ¬ (val B xs ≤ val B ys) := by omega
              simp [h3, h4]

/-- `LimbInt::le` computes numeric `≤` on in-range equal-length inputs;
in particular it accepts equality (this is the `≤ MODULUS` acceptance
used by `rand`). -/
theorem le_correct (B : Nat) (hB : 0 < B) (self other : List Nat)
    (hlen : self.length = other.length)
    (hs : InRange B self) (ho : InRange B other) :
    le self other = decide (val B self ≤ val B other) := by
  rw [le, le_fold_flag_true]
  by_cases hall : ∀ p ∈ ((self.zip other).reverse), p.1 = p.2
  · have hxy : self = other := eq_of_zip_eq self other hlen
      (fun p hp => hall p (by simp [hp]))
    subst hxy
    rw [if_pos hall]
    simp
  · rw [if_neg hall]
    exact lexLeBE_correct B hB self other hlen hs ho

end Cryp

namespace Cryp

/-!
## Solinas reduction (src/cryp_alg/src/fields/solinas.rs lines 29-53)

The two `while` loops are modelled with an explicit fuel parameter
(`none` = the loop did not finish within the given fuel); the top-level
`solinas_reduction` passes fuel that the specification lemmas prove
sufficient, so on well-formed inputs the result is always `some`.
-/

/-- The fold loop (solinas.rs lines 44-46): while the high half is
nonzero, replace `(a_l, a_h)` by `a_h * c_vec + a_l`. -/
def solinas_fold_loop (B : Nat) (c_vec : List Nat) :
    Nat → List Nat × List Nat → Option (List Nat × List Nat)
  | 0, _ => none
  | fuel + 1, st =>
      if st.2 = List.replicate st.2.length 0 then some st
      else solinas_fold_loop B c_vec fuel (carrying_mul B st.2 c_vec st.1).1

/-- The final subtraction loop (solinas.rs lines 49-51): while
`MODULUS ≤ a_l` (tested with `LimbInt::le`), subtract the modulus. -/
def solinas_sub_loop (B : Nat) (modulus : List Nat) :
    Nat → List Nat → Option (List Nat)
  | 0, _ => none
  | fuel + 1, a_l =>
      if le modulus a_l then
        solinas_sub_loop B modulus fuel (carrying_sub B a_l modulus 0).1
      else some a_l

/-- `SolinasReduction::reduction` (solinas.rs lines 29-53): one
unconditional fold `a = a_h * c_vec + a_l`, then the fold loop until the
high half is zero, then the subtraction loop until the value is below
the modulus. -/
def solinas_reduction (B C : Nat) (modulus : List Nat)
    (element : List Nat × List Nat) : Option (List Nat) :=
  let c_vec := (List.replicate modulus.length 0).set 0 C
  let first := (carrying_mul B element.2 c_vec element.1).1
  (solinas_fold_loop B c_vec
      (val B first.1 + B ^ modulus.length * val B first.2 + 1) first).bind
    (fun st => solinas_sub_loop B modulus (val B st.1 + 1) st.1)

/-- The fold loop terminates within fuel exceeding the current combined
value and returns a state with zero high half, congruent to the input
modulo `p = B^N - C`. -/
theorem solinas_fold_loop_spec (B C : Nat) (hB : 1 < B) (modulus : List Nat)
    (c_vec : List Nat) (hcvl : c_vec.length = modulus.length)
    (hcvr : InRange B c_vec) (hcv : val B c_vec = C)
    (hm0 : 0 < val B modulus)
    (hpC : val B modulus + C = B ^ modulus.length) :
    ∀ (fuel : Nat) (st : List Nat × List Nat),
    st.1.length = modulus.length → st.2.length = modulus.length →
    InRange B st.1 → InRange B st.2 →
    val B st.1 + B ^ modulus.length * val B st.2 < fuel →
    ∃ l h, solinas_fold_loop B c_vec fuel st = some (l, h) ∧
      h = List.replicate modulus.length 0 ∧
      l.length = modulus.length ∧ InRange B l ∧
      val B l % val B modulus =
        (val B st.1 + B ^ modulus.length * val B st.2) % val B modulus := by
  intro fuel
  induction fuel with
  | zero => intro st _ _ _ _ hlt; omega
  | succ fuel ih =>
      intro st hl1 hl2 hr1 hr2 hlt
      by_cases hz : st.2 = List.replicate st.2.length 0
      · refine ⟨st.1, st.2, ?_, by rw [hz, hl2], hl1, hr1, ?_⟩
        · rw [solinas_fold_loop, if_pos hz]
        · have hzv : val B st.2 = 0 := by
            rw [hz, val_replicate_zero]
          rw [hzv]
          simp
      · obtain ⟨hmv, hml1, hml2, hmr1, hmr2, -⟩ :=
          carrying_mul_spec B hB st.2 c_vec st.1 (by omega) (by omega) hr2
            hcvr hr1
        rw [hcv, hl2] at hmv
        have hh2 : 0 < val B st.2 := by
          rcases Nat.eq_zero_or_pos (val B st.2) with h0 | h0
          · exfalso
            apply hz
            have := eq_replicate_zero_of_val_eq_zero B (by omega) st.2 h0
            exact this
          · exact h0
        have hdec : val B (carrying_mul B st.2 c_vec st.1).1.1 +
            B ^ modulus.length *
              val B (carrying_mul B st.2 c_vec st.1).1.2 <
            val B st.1 + B ^ modulus.length * val B st.2 := by
          rw [hmv]
          have h1 : C * val B st.2 + val B modulus * val B st.2 =
              B ^ modulus.length * val B st.2 := by
            rw [← hpC]; ring
          have h2 : val B modulus * 1 ≤ val B modulus * val B st.2 :=
            Nat.mul_le_mul_left _ hh2
          have h3 : val B st.2 * C = C * val B st.2 := by ring
          omega
        obtain ⟨l, h, hsome, hhz, hll, hlr, hmod⟩ :=
          ih (carrying_mul B st.2 c_vec st.1).1 (by rw [hml1, hl2])
            (by rw [hml2, hl2]) hmr1 hmr2 (by omega)
        refine ⟨l, h, ?_, hhz, hll, hlr, ?_⟩
        · rw [solinas_fold_loop, if_neg hz]
          exact hsome
        · rw [hmod, hmv]
          have hstep : val B st.2 * C + val B st.1 +
              val B modulus * val B st.2 =
              val B st.1 + B ^ modulus.length * val B st.2 := by
            rw [← hpC]; ring
          calc (val B st.2 * C + val B st.1) % val B modulus
              = (val B st.2 * C + val B st.1 +
                  val B modulus * val B st.2) % val B modulus := by
                rw [Nat.add_mul_mod_self_left]
            _ = (val B st.1 + B ^ modulus.length * val B st.2) %
                  val B modulus := by rw [hstep]

end Cryp

namespace Cryp

/-- The subtraction loop terminates within fuel exceeding the current
value and computes the remainder modulo the modulus. -/
theorem solinas_sub_loop_spec (B : Nat) (hB : 1 < B) (modulus : List Nat)
    (hm : InRange B modulus) (hm0 : 0 < val B modulus) :
    ∀ (fuel : Nat) (a_l : List Nat),
    a_l.length = modulus.length → InRange B a_l →
    val B a_l < fuel →
    ∃ r, solinas_sub_loop B modulus fuel a_l = some r ∧
      r.length = modulus.length ∧ InRange B r ∧
      val B r = val B a_l % val B modulus := by
  intro fuel
  induction fuel with
  | zero => intro a_l _ _ hlt; omega
  | succ fuel ih =>
      intro a_l hlen hr hlt
      have hle := le_correct B (by omega) modulus a_l (by omega) hm hr
      by_cases hc : le modulus a_l = true
      · have hge : val B modulus ≤ val B a_l := by
          rw [hle] at hc
          simpa using hc
        obtain ⟨hsub, -⟩ := carrying_sub_exact B (by omega) a_l modulus 0 hr hm
          (by omega) (by omega)
        have hsb := carrying_sub_borrow_iff B (by omega) a_l modulus 0 hr hm
          (by omega) (by omega)
        have hnb : (carrying_sub B a_l modulus 0).2 = 0 := by
          rw [hsb, if_neg (by omega)]
        rw [hnb] at hsub
        have hsval : val B (carrying_sub B a_l modulus 0).1 =
            val B a_l - val B modulus := by omega
        obtain ⟨r, hsome, hrlen, hrr, hrmod⟩ := ih (carrying_sub B a_l modulus 0).1
          (by rw [carrying_sub_length B a_l modulus 0 (by omega), hlen])
          (carrying_sub_in_range B (by omega) _ _ 0) (by omega)
        refine ⟨r, ?_, hrlen, hrr, ?_⟩
        · rw [solinas_sub_loop, if_pos hc]
          exact hsome
        · rw [hrmod, hsval, ← Nat.mod_eq_sub_mod hge]
      · refine ⟨a_l, ?_, hlen, hr, ?_⟩
        · rw [solinas_sub_loop, if_neg hc]
        · have hlt2 : val B a_l < val B modulus := by
            rw [hle] at hc
            simpa using hc
          rw [Nat.mod_eq_of_lt hlt2]

/-- Shared specification of `SolinasReduction::reduction`: for a
pseudo-Mersenne modulus `p = B^N - C` the reduction terminates and
returns an `N`-limb value congruent to the input and below `p`. -/
theorem solinas_reduction_spec (B C : Nat) (modulus : List Nat)
    (element : List Nat × List Nat) (hB : 1 < B) (hC : C < B)
    (hN : 0 < modulus.length) (hm : InRange B modulus)
    (hm0 : 0 < val B modulus)
    (hpC : val B modulus + C = B ^ modulus.length)
    (hl1 : element.1.length = modulus.length)
    (hl2 : element.2.length = modulus.length)
    (hr1 : InRange B element.1) (hr2 : InRange B element.2) :
    ∃ r, solinas_reduction B C modulus element = some r ∧
      r.length = modulus.length ∧ InRange B r ∧
      val B r < val B modulus ∧
      val B r % val B modulus =
        (val B element.1 + B ^ modulus.length * val B element.2) %
          val B modulus := by
  have hB0 : 0 < B := by omega
  set N := modulus.length with hNdef
  set c_vec := (List.replicate N 0).set 0 C with hcvdef
  have hcvl : c_vec.length = N := by
    rw [hcvdef, List.length_set, List.length_replicate]
  have hcvr : InRange B c_vec := by
    intro z hz
    rw [hcvdef] at hz
    rcases List.mem_or_eq_of_mem_set hz with h | h
    · rw [List.eq_of_mem_replicate h]; omega
    · omega
  have hcv : val B c_vec = C := by
    rw [hcvdef]
    have := val_set_replicate B C 0 N hN
    simpa using this
  obtain ⟨hmv, hml1, hml2, hmr1, hmr2, -⟩ :=
    carrying_mul_spec B hB element.2 c_vec element.1 (by omega) (by omega)
      hr2 hcvr hr1
  rw [hcv, hl2] at hmv
  set first := (carrying_mul B element.2 c_vec element.1).1 with hfirstdef
  obtain ⟨l, h, hsome, hhz, hll, hlr, hmod⟩ :=
    solinas_fold_loop_spec B C hB modulus c_vec hcvl hcvr hcv hm0 hpC
      (val B first.1 + B ^ N * val B first.2 + 1) first
      (by rw [hml1, hl2]) (by rw [hml2, hl2]) hmr1 hmr2
      (by rw [← hNdef]; omega)
  obtain ⟨r, hsome2, hrlen, hrr, hrmod⟩ :=
    solinas_sub_loop_spec B hB modulus hm hm0 (val B l + 1) l hll hlr
      (by omega)
  refine ⟨r, ?_, hrlen, hrr, ?_, ?_⟩
  · rw [solinas_reduction]
    rw [← hcvdef, ← hfirstdef, hsome]
    simp only [Option.some_bind]
    exact hsome2
  · rw [hrmod]
    exact Nat.mod_lt _ hm0
  · rw [hrmod, Nat.mod_mod_of_dvd _ (dvd_refl _), hmod, hmv]
    have hstep : val B element.2 * C + val B element.1 +
        val B modulus * val B element.2 =
        val B element.1 + B ^ N * val B element.2 := by
      rw [← hpC]; ring
    calc (val B element.2 * C + val B element.1) % val B modulus
        = (val B element.2 * C + val B element.1 +
            val B modulus * val B element.2) % val B modulus := by
          rw [Nat.add_mul_mod_self_left]
      _ = (val B element.1 + B ^ N * val B element.2) % val B modulus := by
          rw [hstep]

end Cryp

namespace Cryp

/-- C4: for every pseudo-Mersenne modulus `p = B^N - C` (`C` a limb,
stated as `val modulus + C = B^N` with `0 < val modulus`, `C < B`) and
every double-width input `(a_lo, a_hi)`, `SolinasReduction::reduction`
repeatedly folds the high half back (`a_lo + C * a_hi`) until it is
exactly zero, then subtracts the modulus until the value is below it;
both loops terminate, and the returned `N`-limb value is congruent to
`a_lo + B^N * a_hi` modulo `p` and strictly less than `p`. -/
theorem solinas_reduction_correct (B C : Nat) (modulus : List Nat)
    (element : List Nat × List Nat) (hB : 1 < B) (hC : C < B)
    (hN : 0 < modulus.length) (hm : InRange B modulus)
    (hm0 : 0 < val B modulus)
    (hpC : val B modulus + C = B ^ modulus.length)
    (hl1 : element.1.length = modulus.length)
    (hl2 : element.2.length = modulus.length)
    (hr1 : InRange B element.1) (hr2 : InRange B element.2) :
    ∃ r, solinas_reduction B C modulus element = some r ∧
      r.length = modulus.length ∧
      val B r < val B modulus ∧
      val B r % val B modulus =
        (val B element.1 + B ^ modulus.length * val B element.2) %
          val B modulus := by
  obtain ⟨r, h1, h2, _, h4, h5⟩ :=
    solinas_reduction_spec B C modulus element hB hC hN hm hm0 hpC hl1 hl2
      hr1 hr2
  exact ⟨r, h1, h2, h4, h5⟩

/-- Witness for C4: `B = 2^32`, `N = 1`, `C = 5`, modulus
`p = 2^32 - 5`, input `(123456789, 987654321)`. -/
theorem solinas_reduction_correct_witness :
    ∃ r, solinas_reduction 4294967296 5 [4294967291]
        ([123456789], [987654321]) = some r ∧
      r.length = ([4294967291] : List Nat).length ∧
      val 4294967296 r < val 4294967296 [4294967291] ∧
      val 4294967296 r % val 4294967296 [4294967291] =
        (val 4294967296 [123456789] +
            4294967296 ^ ([4294967291] : List Nat).length *
              val 4294967296 [987654321]) %
          val 4294967296 [4294967291] :=
  solinas_reduction_correct 4294967296 5 [4294967291]
    ([123456789], [987654321]) (by decide) (by decide) (by decide)
    (by decide) (by decide) (by decide) (by decide) (by decide) (by decide)
    (by decide)

end Cryp

namespace Cryp

/-!
## Field-strategy operations producing stored representations

`GeneralReductionOperations` (general_reduction.rs lines 34-113) with
the `SolinasReduction` algorithm, and `MontgomeryOperations`
(montgomery.rs lines 83-165).  `rand` (general_reduction.rs lines 68-81,
montgomery.rs lines 121-134) draws `N` fresh limbs per loop iteration
and accepts the first draw `d` with `d.le(&MODULUS)`; we model the
random source as the list of successive `N`-limb draws.
-/

/-- `LimbInt::zero` (limbint.rs lines 11-13), used by both strategies'
`zero()`. -/
def limbint_zero (N : Nat) : List Nat := List.replicate N 0

/-- `LimbInt::one` (limbint.rs lines 16-20), the general-reduction
strategy's `one()`. -/
def limbint_one (N : Nat) : List Nat := (List.replicate N 0).set 0 1

/-- `GeneralReductionOperations::reduce` (general_reduction.rs lines
62-66) with the Solinas reduction: pad with a zero high half and reduce. -/
def general_reduce (B C : Nat) (modulus : List Nat) (element : List Nat) :
    Option (List Nat) :=
  solinas_reduction B C modulus (element, limbint_zero modulus.length)

/-- `GeneralReductionOperations::mul_assign` (general_reduction.rs lines
109-112) with the Solinas reduction. -/
def general_mul (B C : Nat) (modulus : List Nat) (lhs other : List Nat) :
    Option (List Nat) :=
  solinas_reduction B C modulus
    (carrying_mul B lhs other (limbint_zero modulus.length)).1

/-- `GeneralReductionOperations::rand` (general_reduction.rs lines
68-81): accept the first draw `d` with `d.le(&MODULUS)` and return it
unchanged. -/
def general_rand (modulus : List Nat) : List (List Nat) → Option (List Nat)
  | [] => none
  | d :: ds => if le d modulus then some d else general_rand modulus ds

/-- `MontgomeryOperations::one` (montgomery.rs lines 93-96): returns
the parameter constant `P::R`, documented in `MontParameters`
(montgomery.rs lines 16-17) as "the element `R mod p`" with
`R = b^N`. -/
def montgomery_one (R : List Nat) : List Nat := R

/-- `MontgomeryOperations::montgomery_mul` (montgomery.rs lines 73-79). -/
def montgomery_mul (B : Nat) (modulus : List Nat) (MP : Nat)
    (element other : List Nat) : List Nat :=
  (montgomery_reduction B modulus MP
    (carrying_mul B element other (limbint_zero modulus.length)).1).1

/-- `MontgomeryOperations::reduce` (montgomery.rs lines 114-119):
multiply by `R2` and reduce. -/
def montgomery_reduce (B : Nat) (modulus : List Nat) (MP : Nat)
    (R2 : List Nat) (element : List Nat) : List Nat :=
  (montgomery_reduction B modulus MP
    (carrying_mul B element R2 (limbint_zero modulus.length)).1).1

/-- `MontgomeryOperations::rand` (montgomery.rs lines 121-134): accept
the first draw `d` with `d.le(&MODULUS)`, then return `reduce(d)`. -/
def montgomery_rand (B : Nat) (modulus : List Nat) (MP : Nat)
    (R2 : List Nat) : List (List Nat) → Option (List Nat)
  | [] => none
  | d :: ds => if le d modulus
      then some (montgomery_reduce B modulus MP R2 d)
      else montgomery_rand B modulus MP R2 ds

/-- A draw accepted by the general-reduction `rand` is the accepted draw
itself. -/
theorem general_rand_mem (modulus : List Nat) :
    ∀ (stream : List (List Nat)) (r : List Nat),
    general_rand modulus stream = some r →
    r ∈ stream ∧ le r modulus = true := by
  intro stream
  induction stream with
  | nil => intro r h; simp [general_rand] at h
  | cons d ds ih =>
      intro r h
      rw [general_rand] at h
      by_cases hc : le d modulus = true
      · rw [if_pos hc] at h
        obtain rfl : d = r := by simpa using h
        exact ⟨by simp, hc⟩
      · rw [if_neg hc] at h
        obtain ⟨hmem, hle⟩ := ih r h
        exact ⟨by simp [hmem], hle⟩

/-- A result of the Montgomery `rand` is the reduction of an accepted
draw. -/
theorem montgomery_rand_mem (B : Nat) (modulus : List Nat) (MP : Nat)
    (R2 : List Nat) :
    ∀ (stream : List (List Nat)) (r : List Nat),
    montgomery_rand B modulus MP R2 stream = some r →
    ∃ d ∈ stream, le d modulus = true ∧
      r = montgomery_reduce B modulus MP R2 d := by
  intro stream
  induction stream with
  | nil => intro r h; simp [montgomery_rand] at h
  | cons d ds ih =>
      intro r h
      rw [montgomery_rand] at h
      by_cases hc : le d modulus = true
      · rw [if_pos hc] at h
        refine ⟨d, by simp, hc, ?_⟩
        simpa using h.symm
      · rw [if_neg hc] at h
        obtain ⟨e, hmem, hle, heq⟩ := ih r h
        exact ⟨e, by simp [hmem], hle, heq⟩

end Cryp

namespace Cryp

/-- C5 counterexample: for the general-reduction strategy with the
pseudo-Mersenne modulus `p = 2^32 - 5` (`B = 2^32`, `N = 1`, `C = 5`),
the random stream whose first `N`-limb draw is exactly the modulus is
accepted (`le` accepts equality) and returned unreduced: the stored
value equals `MODULUS`, not strictly less than `MODULUS`. -/
theorem rand_general_counterexample :
    InRange 4294967296 [4294967291] ∧
    ([4294967291] : List Nat).length = ([4294967291] : List Nat).length ∧
    general_rand [4294967291] [[4294967291]] = some [4294967291] ∧
    ¬ (val 4294967296 [4294967291] < val 4294967296 [4294967291]) := by
  decide

/-- Product of two values below `P` and `m` respectively is below `m * P`. -/
theorem mul_lt_of_lt_of_lt (a b P m : Nat) (ha : a < P) (hb : b < m) :
    a * b < m * P := by
  obtain ⟨p2, rfl⟩ : ∃ p2, P = p2 + 1 := ⟨P - 1, by omega⟩
  obtain ⟨m2, rfl⟩ : ∃ m2, m = m2 + 1 := ⟨m - 1, by omega⟩
  have h1 : a * b ≤ p2 * m2 := Nat.mul_le_mul (by omega) (by omega)
  have h2 : (m2 + 1) * (p2 + 1) = m2 * p2 + m2 + p2 + 1 := by ring
  have h3 : p2 * m2 = m2 * p2 := by ring
  omega

end Cryp

namespace Cryp

theorem limbint_zero_length (N : Nat) : (limbint_zero N).length = N := by
  simp [limbint_zero]

theorem limbint_zero_range (B N : Nat) (hB : 0 < B) :
    InRange B (limbint_zero N) := by
  intro z hz
  rw [limbint_zero] at hz
  rw [List.eq_of_mem_replicate hz]
  omega

theorem limbint_zero_val (B N : Nat) : val B (limbint_zero N) = 0 :=
  val_replicate_zero B N

/-- Montgomery reduction of a product `x * r` with `x` in range and
`val r < MODULUS` stores a value strictly below the modulus (this covers
`montgomery_mul`, `reduce` and the reduction step of `rand`). -/
theorem montgomery_mulred_lt (B : Nat) (hB : 1 < B) (modulus : List Nat)
    (MP : Nat) (hm : InRange B modulus) (hm0 : 0 < val B modulus)
    (hmp : (val B modulus * MP + 1) % B = 0)
    (x r : List Nat) (hxl : x.length = modulus.length) (hxr : InRange B x)
    (hrl : r.length = modulus.length) (hrr : InRange B r)
    (hrv : val B r < val B modulus) :
    val B (montgomery_reduction B modulus MP
      (carrying_mul B x r (limbint_zero modulus.length)).1).1 <
      val B modulus := by
  have hB0 : 0 < B := by omega
  have hz := limbint_zero_range B modulus.length (by omega)
  have hzl := limbint_zero_length modulus.length
  obtain ⟨hexact, hl1, hl2, hrg1, hrg2, _⟩ :=
    carrying_mul_spec B hB x r (limbint_zero modulus.length)
      (by omega) (by omega) hxr hrr hz
  rw [hxl] at hexact hl1 hl2
  rw [limbint_zero_val] at hexact
  have hxv : val B x < B ^ modulus.length := by
    have h := val_lt B x hxr
    rw [hxl] at h
    exact h
  have hprod : val B x * val B r < val B modulus * B ^ modulus.length :=
    mul_lt_of_lt_of_lt _ _ _ _ hxv hrv
  have hA : val B (carrying_mul B x r (limbint_zero modulus.length)).1.1 +
      B ^ modulus.length *
        val B (carrying_mul B x r (limbint_zero modulus.length)).1.2 <
      val B modulus * B ^ modulus.length := by omega
  exact (montgomery_reduction_spec B hB modulus MP hm hm0 hmp
    (carrying_mul B x r (limbint_zero modulus.length)).1
    hl1 hl2 hrg1 hrg2 hA).2.2.1

end Cryp

namespace Cryp

set_option maxHeartbeats 1000000 in
/-- C5 (amended): for both PrimeFieldOperations strategies modelled
from the source (general/Solinas reduction in general_reduction.rs /
solinas.rs and Montgomery in montgomery.rs), every operation that
produces a field-element representation — zero, one, reduce,
add_assign, sub_assign, mul_assign on reduced inputs, and rand for
every possible random stream — returns a stored value strictly less
than MODULUS, EXCEPT the general-reduction rand, which only guarantees
a value less than or equal to MODULUS: its acceptance test `le` accepts
equality and the accepted draw is returned unreduced, so the stored
value can be exactly MODULUS.  The Montgomery `one()` is the parameter
constant `R = b^N mod p` (montgomery.rs lines 16-17, 93-96), stated
here by its defining property, and is therefore below MODULUS. -/
theorem field_representation_invariant
    (B C : Nat) (mS : List Nat)
    (mM : List Nat) (MP : Nat) (R2 Rl : List Nat)
    (a b g : List Nat) (streamS : List (List Nat)) (rS rg rmul : List Nat)
    (am bm gm : List Nat) (streamM : List (List Nat)) (rM : List Nat)
    (hB : 1 < B) (hC : C < B) (hNS : 0 < mS.length)
    (hmSr : InRange B mS) (hmS1 : 1 < val B mS)
    (hpC : val B mS + C = B ^ mS.length)
    (hal : a.length = mS.length) (har : InRange B a)
    (hav : val B a < val B mS)
    (hbl : b.length = mS.length) (hbr : InRange B b)
    (hbv : val B b < val B mS)
    (hgl : g.length = mS.length) (hgr : InRange B g)
    (hrg : general_reduce B C mS g = some rg)
    (hrmul : general_mul B C mS a b = some rmul)
    (hrS : general_rand mS streamS = some rS)
    (hsS : ∀ d ∈ streamS, d.length = mS.length ∧ InRange B d)
    (hmMr : InRange B mM) (hmM0 : 0 < val B mM)
    (hMP : (val B mM * MP + 1) % B = 0)
    (hR2l : R2.length = mM.length) (hR2r : InRange B R2)
    (hR2v : val B R2 < val B mM)
    (hRv : val B Rl = B ^ mM.length % val B mM)
    (haml : am.length = mM.length) (hamr : InRange B am)
    (hamv : val B am < val B mM)
    (hbml : bm.length = mM.length) (hbmr : InRange B bm)
    (hbmv : val B bm < val B mM)
    (hgml : gm.length = mM.length) (hgmr : InRange B gm)
    (hrM : montgomery_rand B mM MP R2 streamM = some rM)
    (hsM : ∀ d ∈ streamM, d.length = mM.length ∧ InRange B d) :
    val B (limbint_zero mS.length) < val B mS ∧
    val B (limbint_one mS.length) < val B mS ∧
    val B rg < val B mS ∧
    val B (add_assign B mS a b) < val B mS ∧
    val B (sub_assign B mS a b) < val B mS ∧
    val B rmul < val B mS ∧
    val B rS ≤ val B mS ∧
    val B (limbint_zero mM.length) < val B mM ∧
    val B (montgomery_one Rl) < val B mM ∧
    val B (montgomery_reduce B mM MP R2 gm) < val B mM ∧
    val B (add_assign B mM am bm) < val B mM ∧
    val B (sub_assign B mM am bm) < val B mM ∧
    val B (montgomery_mul B mM MP am bm) < val B mM ∧
    val B rM < val B mM := by
  have hB0 : 0 < B := by omega
  have hmS0 : 0 < val B mS := by omega
  refine ⟨?_, ?_, ?_, ?_, ?_, ?_, ?_, ?_, ?_, ?_, ?_, ?_, ?_, ?_⟩
  · rw [limbint_zero_val]; omega
  · rw [limbint_one, val_set_replicate B 1 0 mS.length hNS]
    simp only [pow_zero, mul_one]
    omega
  · obtain ⟨r, hsome, hrl2, _, hrv, _⟩ :=
      solinas_reduction_spec B C mS (g, limbint_zero mS.length)
        hB hC hNS hmSr hmS0 hpC hgl (limbint_zero_length mS.length)
        hgr (limbint_zero_range B mS.length hB0)
    rw [general_reduce, hsome] at hrg
    rw [Option.some.injEq] at hrg
    rw [hrg] at hrv
    exact hrv
  · have h := (add_assign_spec B hB mS a b hal hbl hmSr har hbr hav hbv).1
    rw [h]
    exact Nat.mod_lt _ hmS0
  · have h := (sub_assign_spec B hB mS a b hal hbl hmSr har hbr hav hbv).1
    rw [h]
    exact Nat.mod_lt _ hmS0
  · obtain ⟨hexact, hl1, hl2, hrg1, hrg2, _⟩ :=
      carrying_mul_spec B hB a b (limbint_zero mS.length)
        (by omega) (by rw [limbint_zero_length]; omega) har hbr
        (limbint_zero_range B mS.length hB0)
    rw [hal] at hl1 hl2
    obtain ⟨r, hsome, hrl2, _, hrv, _⟩ :=
      solinas_reduction_spec B C mS (carrying_mul B a b
          (limbint_zero mS.length)).1
        hB hC hNS hmSr hmS0 hpC hl1 hl2 hrg1 hrg2
    rw [general_mul, hsome] at hrmul
    rw [Option.some.injEq] at hrmul
    rw [hrmul] at hrv
    exact hrv
  · obtain ⟨hmem, hle⟩ := general_rand_mem mS streamS rS hrS
    obtain ⟨hdl, hdr⟩ := hsS rS hmem
    have hdec := le_correct B hB0 rS mS hdl hdr hmSr
    rw [hdec] at hle
    exact of_decide_eq_true hle
  · rw [limbint_zero_val]; omega
  · simp only [montgomery_one]
    rw [hRv]
    exact Nat.mod_lt _ hmM0
  · exact montgomery_mulred_lt B hB mM MP hmMr hmM0 hMP gm R2
      hgml hgmr hR2l hR2r hR2v
  · have h := (add_assign_spec B hB mM am bm haml hbml hmMr hamr hbmr
      hamv hbmv).1
    rw [h]
    exact Nat.mod_lt _ hmM0
  · have h := (sub_assign_spec B hB mM am bm haml hbml hmMr hamr hbmr
      hamv hbmv).1
    rw [h]
    exact Nat.mod_lt _ hmM0
  · exact montgomery_mulred_lt B hB mM MP hmMr hmM0 hMP am bm
      haml hamr hbml hbmr hbmv
  · obtain ⟨d, hdmem, hdle, hdeq⟩ :=
      montgomery_rand_mem B mM MP R2 streamM rM hrM
    obtain ⟨hdl, hdr⟩ := hsM d hdmem
    rw [hdeq]
    exact montgomery_mulred_lt B hB mM MP hmMr hmM0 hMP d R2
      hdl hdr hR2l hR2r hR2v

end Cryp

namespace Cryp

/-- Witness for C5: concrete instantiation with `B = 2^32`; Solinas
instance `p = 2^32 - 5` (C = 5), Montgomery instance `MODULUS = 5`,
`MP = -5^-1 mod 2^32 = 858993459`, `R = 2^32 mod 5 = 1`, `R2 ≡ 1`. -/
theorem field_representation_invariant_witness :
    val 4294967296 (limbint_zero 1) < val 4294967296 [4294967291] ∧
    val 4294967296 (limbint_one 1) < val 4294967296 [4294967291] ∧
    val 4294967296 [123] < val 4294967296 [4294967291] ∧
    val 4294967296 (add_assign 4294967296 [4294967291] [7] [9]) <
      val 4294967296 [4294967291] ∧
    val 4294967296 (sub_assign 4294967296 [4294967291] [7] [9]) <
      val 4294967296 [4294967291] ∧
    val 4294967296 [63] < val 4294967296 [4294967291] ∧
    val 4294967296 [4294967291] ≤ val 4294967296 [4294967291] ∧
    val 4294967296 (limbint_zero 1) < val 4294967296 [5] ∧
    val 4294967296 (montgomery_one [1]) < val 4294967296 [5] ∧
    val 4294967296 (montgomery_reduce 4294967296 [5] 858993459 [1] [7]) <
      val 4294967296 [5] ∧
    val 4294967296 (add_assign 4294967296 [5] [3] [4]) <
      val 4294967296 [5] ∧
    val 4294967296 (sub_assign 4294967296 [5] [3] [4]) <
      val 4294967296 [5] ∧
    val 4294967296 (montgomery_mul 4294967296 [5] 858993459 [3] [4]) <
      val 4294967296 [5] ∧
    val 4294967296 [0] < val 4294967296 [5] :=
  field_representation_invariant 4294967296 5 [4294967291] [5] 858993459
    [1] [1] [7] [9] [123] [[4294967291]] [4294967291] [123] [63]
    [3] [4] [7] [[5]] [0]
    (by decide) (by decide) (by decide) (by decide) (by decide) (by decide)
    (by decide) (by decide) (by decide) (by decide) (by decide) (by decide)
    (by decide) (by decide) (by decide) (by decide) (by decide) (by decide)
    (by decide) (by decide) (by decide) (by decide) (by decide) (by decide)
    (by decide) (by decide) (by decide) (by decide) (by decide) (by decide)
    (by decide) (by decide) (by decide) (by decide) (by decide)

end Cryp

namespace Cryp

/-!
## Bit iteration and exponentiation
(src/cryp_alg/src/biginteger.rs lines 41-69, limb.rs into_bytes_be;
src/cryp_alg/src/fields/abstract_operations.rs lines 87-90, 128-143)
-/

/-- The bits of one limb, most significant first (`Bytes::into_iter_be`
takes the limb's bytes big-endian and each byte's bits MSB-first:
the net effect is the limb's `w` bits from position `w-1` down to 0). -/
def limb_bits_be (w l : Nat) : List Bool :=
  (List.range w).map (fun i => l.testBit (w - 1 - i))

/-- `Bits::into_iter_be` (biginteger.rs lines 41-51): iterate limbs
most-significant first (`into_limbs_le().iter().rev()`), each limb
MSB-first; the little-endian limb list therefore contributes its head's
bits last. -/
def bitsBE (w : Nat) : List Nat → List Bool
  | [] => []
  | l :: ls => bitsBE w ls ++ limb_bits_be w l

/-- One accumulator step of reading an MSB-first bit stream. -/
def bit_step (acc : Nat) (b : Bool) : Nat := 2 * acc + b.toNat

/-- Iterated abstract multiplication: `fpow mul one x n = x^n`. -/
def fpow {α : Type} (mul : α → α → α) (one x : α) : Nat → α
  | 0 => one
  | n + 1 => mul x (fpow mul one x n)

/-- The loop body of `PrimeFieldOperations::exp`
(abstract_operations.rs lines 128-143): Montgomery powering ladder with
accumulators `res = st.1`, `base = st.2`. -/
def exp_loop {α : Type} (mul : α → α → α) (sq : α → α) :
    List Bool → α × α → α × α
  | [], st => st
  | bit :: bits, st =>
      exp_loop mul sq bits
        (if bit then (mul st.1 st.2, sq st.2) else (sq st.1, mul st.2 st.1))

/-- `PrimeFieldOperations::exp`: `res = one, base = element`, run the
ladder over the big-endian bits, return `res`. -/
def exp {α : Type} (mul : α → α → α) (sq : α → α) (one element : α)
    (bits : List Bool) : α :=
  (exp_loop mul sq bits (one, element)).1

/-- The same ladder instrumented with two counters: each loop iteration
of the source executes exactly one `mul_assign` and one `square_assign`
in either branch, so both counters advance by one per bit. -/
def exp_loop_count {α : Type} (mul : α → α → α) (sq : α → α) :
    List Bool → (α × α) × Nat × Nat → (α × α) × Nat × Nat
  | [], st => st
  | bit :: bits, st =>
      exp_loop_count mul sq bits
        (⟨if bit then (mul st.1.1 st.1.2, sq st.1.2)
          else (sq st.1.1, mul st.1.2 st.1.1), st.2.1 + 1, st.2.2 + 1⟩)

theorem testBit_toNat (l w : Nat) : (l.testBit w).toNat = l / 2 ^ w % 2 := by
  rw [Nat.testBit_to_div_mod]
  rcases Nat.mod_two_eq_zero_or_one (l / 2 ^ w) with h | h <;> simp [h]

theorem limb_bits_be_succ (w l : Nat) :
    limb_bits_be (w + 1) l = l.testBit w :: limb_bits_be w l := by
  rw [limb_bits_be, limb_bits_be, List.range_succ_eq_map, List.map_cons,
    List.map_map]
  congr 1
  apply List.map_congr_left
  intro i hi
  simp only [Function.comp]
  congr 1
  omega

theorem foldl_limb_bits (w : Nat) : ∀ l acc : Nat,
    (limb_bits_be w l).foldl bit_step acc = acc * 2 ^ w + l % 2 ^ w := by
  induction w with
  | zero =>
      intro l acc
      simp [limb_bits_be, Nat.mod_one]
  | succ w ih =>
      intro l acc
      rw [limb_bits_be_succ, List.foldl_cons, ih]
      rw [bit_step, testBit_toNat, pow_succ, Nat.mod_mul]
      ring

theorem bitsBE_length (w : Nat) : ∀ limbs : List Nat,
    (bitsBE w limbs).length = w * limbs.length := by
  intro limbs
  induction limbs with
  | nil => simp [bitsBE]
  | cons l ls ih =>
      rw [bitsBE, List.length_append, ih, limb_bits_be, List.length_map,
        List.length_range, List.length_cons]
      ring

theorem foldl_bitsBE (w : Nat) : ∀ (limbs : List Nat) (acc : Nat),
    InRange (2 ^ w) limbs →
    (bitsBE w limbs).foldl bit_step acc =
      acc * (2 ^ w) ^ limbs.length + val (2 ^ w) limbs := by
  intro limbs
  induction limbs with
  | nil =>
      intro acc _
      simp [bitsBE, val]
  | cons l ls ih =>
      intro acc hr
      rw [bitsBE, List.foldl_append,
        ih acc (fun z hz => hr z (List.mem_cons_of_mem _ hz)),
        foldl_limb_bits,
        Nat.mod_eq_of_lt (hr l (List.mem_cons_self _ _)),
        val_cons, List.length_cons, pow_succ]
      ring

end Cryp

namespace Cryp

theorem fpow_add {α : Type} (mul : α → α → α) (one x : α)
    (hassoc : ∀ a b c, mul (mul a b) c = mul a (mul b c))
    (honel : ∀ a, mul one a = a) :
    ∀ a b : Nat, fpow mul one x (a + b) =
      mul (fpow mul one x a) (fpow mul one x b) := by
  intro a
  induction a with
  | zero =>
      intro b
      rw [Nat.zero_add, fpow, honel]
  | succ a ih =>
      intro b
      have h : a + 1 + b = (a + b) + 1 := by omega
      rw [h, fpow, ih, fpow, hassoc]

theorem exp_loop_spec {α : Type} (mul : α → α → α) (sq : α → α) (one x : α)
    (hassoc : ∀ a b c, mul (mul a b) c = mul a (mul b c))
    (honel : ∀ a, mul one a = a)
    (hsq : ∀ a, sq a = mul a a) :
    ∀ (bits : List Bool) (k : Nat),
    exp_loop mul sq bits (fpow mul one x k, fpow mul one x (k + 1)) =
      (fpow mul one x (bits.foldl bit_step k),
       fpow mul one x (bits.foldl bit_step k + 1)) := by
  intro bits
  induction bits with
  | nil => intro k; rw [exp_loop, List.foldl_nil]
  | cons b bs ih =>
      intro k
      have hmulkk : ∀ i j : Nat, mul (fpow mul one x i) (fpow mul one x j) =
          fpow mul one x (i + j) :=
        fun i j => (fpow_add mul one x hassoc honel i j).symm
      cases b
      · have hst : (if false then
              (mul (fpow mul one x k) (fpow mul one x (k + 1)),
                sq (fpow mul one x (k + 1)))
            else (sq (fpow mul one x k),
              mul (fpow mul one x (k + 1)) (fpow mul one x k))) =
            (fpow mul one x (2 * k), fpow mul one x (2 * k + 1)) := by
          rw [if_neg (by simp)]
          rw [hsq, hmulkk, hmulkk]
          have h1 : k + k = 2 * k := by omega
          have h2 : k + 1 + k = 2 * k + 1 := by omega
          rw [h1, h2]
        rw [exp_loop, hst, ih (2 * k)]
        have hfold : List.foldl bit_step k (false :: bs) =
            List.foldl bit_step (2 * k) bs := by
          rw [List.foldl_cons]
          have : bit_step k false = 2 * k := by
            rw [bit_step]
            simp [Bool.toNat]
          rw [this]
        rw [hfold]
      · have hst : (if true then
              (mul (fpow mul one x k) (fpow mul one x (k + 1)),
                sq (fpow mul one x (k + 1)))
            else (sq (fpow mul one x k),
              mul (fpow mul one x (k + 1)) (fpow mul one x k))) =
            (fpow mul one x (2 * k + 1), fpow mul one x (2 * k + 2)) := by
          rw [if_pos (by simp)]
          rw [hsq, hmulkk, hmulkk]
          have h1 : k + (k + 1) = 2 * k + 1 := by omega
          have h2 : k + 1 + (k + 1) = 2 * k + 2 := by omega
          rw [h1, h2]
        rw [exp_loop, hst]
        have h3 : 2 * k + 2 = (2 * k + 1) + 1 := by omega
        rw [h3, ih (2 * k + 1)]
        have hfold : List.foldl bit_step k (true :: bs) =
            List.foldl bit_step (2 * k + 1) bs := by
          rw [List.foldl_cons]
          have : bit_step k true = 2 * k + 1 := by
            rw [bit_step]
            simp [Bool.toNat]
          rw [this]
        rw [hfold]

theorem exp_spec {α : Type} (mul : α → α → α) (sq : α → α) (one x : α)
    (hassoc : ∀ a b c, mul (mul a b) c = mul a (mul b c))
    (honel : ∀ a, mul one a = a) (honer : ∀ a, mul a one = a)
    (hsq : ∀ a, sq a = mul a a) (bits : List Bool) :
    exp mul sq one x bits = fpow mul one x (bits.foldl bit_step 0) := by
  rw [exp]
  have h := exp_loop_spec mul sq one x hassoc honel hsq bits 0
  have h1 : fpow mul one x 0 = one := rfl
  have h2 : fpow mul one x (0 + 1) = x := by
    rw [fpow, fpow]
    exact honer x
  rw [h1, h2] at h
  rw [h]

theorem exp_loop_count_spec {α : Type} (mul : α → α → α) (sq : α → α) :
    ∀ (bits : List Bool) (st : α × α) (nm ns : Nat),
    exp_loop_count mul sq bits (st, nm, ns) =
      (exp_loop mul sq bits st, nm + bits.length, ns + bits.length) := by
  intro bits
  induction bits with
  | nil =>
      intro st nm ns
      rw [exp_loop_count, exp_loop, List.length_nil, Nat.add_zero,
        Nat.add_zero]
  | cons b bs ih =>
      intro st nm ns
      rw [exp_loop_count, exp_loop]
      rw [ih]
      rw [List.length_cons]
      have h1 : nm + 1 + bs.length = nm + (bs.length + 1) := by omega
      have h2 : ns + 1 + bs.length = ns + (bs.length + 1) := by omega
      rw [h1, h2]

end Cryp

namespace Cryp

/-- C6: for any carrier with an associative multiplication with unit
(as the field multiplication of any PrimeFieldOperations strategy is)
and squaring equal to self-multiplication, `exp` applied to the
big-endian bit stream that `Bits::into_iter_be` produces from a
little-endian limb representation of the exponent (`w` bits per limb)
returns `x` raised to the exponent's numeric value (the empty or
all-zero bit stream yielding `one`), and the ladder performs exactly
one multiplication and one squaring per bit — `w * limbs.length` of
each in total — regardless of the bit values. -/
theorem exp_correct {α : Type} (mul : α → α → α) (sq : α → α) (one x : α)
    (w : Nat) (limbs : List Nat)
    (hassoc : ∀ a b c, mul (mul a b) c = mul a (mul b c))
    (honel : ∀ a, mul one a = a) (honer : ∀ a, mul a one = a)
    (hsq : ∀ a, sq a = mul a a)
    (hrange : InRange (2 ^ w) limbs) :
    exp mul sq one x (bitsBE w limbs) =
      fpow mul one x (val (2 ^ w) limbs) ∧
    exp_loop_count mul sq (bitsBE w limbs) ((one, x), 0, 0) =
      (exp_loop mul sq (bitsBE w limbs) (one, x),
        w * limbs.length, w * limbs.length) := by
  constructor
  · rw [exp_spec mul sq one x hassoc honel honer hsq]
    rw [foldl_bitsBE w limbs 0 hrange]
    rw [Nat.zero_mul, Nat.zero_add]
  · rw [exp_loop_count_spec mul sq (bitsBE w limbs) (one, x) 0 0]
    rw [bitsBE_length w limbs]
    rw [Nat.zero_add]

/-- Witness for C6: natural-number multiplication, `x = 3`, 2-bit limbs,
exponent limbs `[2, 1]` little-endian (value 6): the ladder returns
`3^6` and performs 4 multiplications and 4 squarings. -/
theorem exp_correct_witness :
    exp (fun a b : Nat => a * b) (fun a => a * a) 1 3 (bitsBE 2 [2, 1]) =
      fpow (fun a b : Nat => a * b) 1 3 (val (2 ^ 2) [2, 1]) ∧
    exp_loop_count (fun a b : Nat => a * b) (fun a => a * a)
        (bitsBE 2 [2, 1]) ((1, 3), 0, 0) =
      (exp_loop (fun a b : Nat => a * b) (fun a => a * a)
        (bitsBE 2 [2, 1]) (1, 3), 2 * 2, 2 * 2) :=
  exp_correct (fun a b : Nat => a * b) (fun a => a * a) 1 3 2 [2, 1]
    (fun a b c => Nat.mul_assoc a b c) (fun a => Nat.one_mul a)
    (fun a => Nat.mul_one a) (fun a => rfl) (by decide)

end Cryp


namespace Cryp

/-!
## Inverse (src/cryp_alg/src/fields/abstract_operations.rs lines 104-121)
for the general-reduction strategy (general_reduction.rs lines 50-56
is_zero, 58-60 as_int = identity, 109-112 mul_assign) with the Solinas
reduction; the limb radix is `B = 2 ^ w`.
-/

/-- `GeneralReductionOperations::is_zero` (general_reduction.rs lines
50-56): OR together `limb != 0` over all limbs, return the negation. -/
def is_zero (element : List Nat) : Bool :=
  !(element.foldl (fun flag l => flag || (l != 0)) false)

/-- The `exp` ladder loop where multiplication can fail (the Solinas
`mul_assign` is modelled with fuel, see `solinas_reduction`); in the
`true` branch `res` is multiplied by `base` then `base` is squared, in
the `false` branch `base` is multiplied by `res` then `res` is squared,
as in abstract_operations.rs lines 134-141 (square_assign is
self-multiplication, lines 87-90). -/
def exp_loopO {α : Type} (mul : α → α → Option α) :
    List Bool → α × α → Option (α × α)
  | [], st => some st
  | bit :: bits, st =>
      if bit then
        (mul st.1 st.2).bind (fun r =>
          (mul st.2 st.2).bind (fun b => exp_loopO mul bits (r, b)))
      else
        (mul st.2 st.1).bind (fun b =>
          (mul st.1 st.1).bind (fun r => exp_loopO mul bits (r, b)))

/-- `PrimeFieldOperations::exp` with fallible multiplication. -/
def expO {α : Type} (mul : α → α → Option α) (one element : α)
    (bits : List Bool) : Option α :=
  (exp_loopO mul bits (one, element)).map (fun st => st.1)

/-- `PrimeFieldOperations::inverse` (abstract_operations.rs lines
108-121) at the general-reduction strategy with the Solinas reduction:
`modulus_minus_two = -(one + one)` (negation_in_place, lines 71-75, is
subtraction from zero), `power = as_int(modulus_minus_two) =
modulus_minus_two`, `res = exp(element, power)` over the
`Bits::into_iter_be` bit stream, `None` iff `res` is zero. -/
def solinas_inverse (w C : Nat) (modulus element : List Nat) :
    Option (List Nat) :=
  let B := 2 ^ w
  let N := modulus.length
  let mm2a := add_assign B modulus (limbint_one N) (limbint_one N)
  let mm2 := sub_assign B modulus (limbint_zero N) mm2a
  match expO (fun a b => general_mul B C modulus a b) (limbint_one N)
      element (bitsBE w mm2) with
  | none => none
  | some res => if is_zero res then none else some res

/-- `mul_assign` of the general-reduction strategy with the Solinas
reduction terminates on in-range inputs with the reduced product. -/
theorem general_mul_spec (B C : Nat) (modulus : List Nat) (hB : 1 < B)
    (hC : C < B) (hN : 0 < modulus.length) (hm : InRange B modulus)
    (hm0 : 0 < val B modulus)
    (hpC : val B modulus + C = B ^ modulus.length)
    (a b : List Nat)
    (hal : a.length = modulus.length) (har : InRange B a)
    (hbl : b.length = modulus.length) (hbr : InRange B b) :
    ∃ r, general_mul B C modulus a b = some r ∧
      r.length = modulus.length ∧ InRange B r ∧
      val B r < val B modulus ∧
      val B r % val B modulus =
        (val B a * val B b) % val B modulus := by
  have hB0 : 0 < B := by omega
  obtain ⟨hexact, hl1, hl2, hrg1, hrg2, -⟩ :=
    carrying_mul_spec B hB a b (limbint_zero modulus.length)
      (by omega) (by rw [limbint_zero_length]; omega) har hbr
      (limbint_zero_range B modulus.length hB0)
  rw [hal] at hl1 hl2
  obtain ⟨r, hsome, hrl, hrr, hrv, hrmod⟩ :=
    solinas_reduction_spec B C modulus
      (carrying_mul B a b (limbint_zero modulus.length)).1
      hB hC hN hm hm0 hpC hl1 hl2 hrg1 hrg2
  refine ⟨r, ?_, hrl, hrr, hrv, ?_⟩
  · rw [general_mul, hsome]
  · rw [hrmod]
    rw [limbint_zero_val, Nat.add_zero, hal] at hexact
    rw [← hexact]

/-- `is_zero` decides whether the stored value is zero. -/
theorem is_zero_iff (B : Nat) (hB : 0 < B) (r : List Nat) :
    is_zero r = true ↔ val B r = 0 := by
  rw [is_zero, val_eq_zero_iff B hB]
  have hfold : ∀ (xs : List Nat) (flag : Bool),
      xs.foldl (fun f l => f || (l != 0)) flag =
        (flag || xs.any (fun l => l != 0)) := by
    intro xs
    induction xs with
    | nil => intro flag; simp
    | cons x xs ih =>
        intro flag
        rw [List.foldl_cons, List.any_cons, ih, Bool.or_assoc]
  rw [hfold]
  simp

end Cryp

namespace Cryp

/-- Ladder invariant for `exp` over the Solinas `mul_assign`: starting
from `(x^k, x^(k+1))` representations, the loop terminates and returns
the representation of `x` to the power read off the bit stream. -/
theorem exp_loopO_general_mul (B C : Nat) (modulus : List Nat) (hB : 1 < B)
    (hC : C < B) (hN : 0 < modulus.length) (hm : InRange B modulus)
    (hm0 : 0 < val B modulus)
    (hpC : val B modulus + C = B ^ modulus.length) (xv : Nat) :
    ∀ (bits : List Bool) (st : List Nat × List Nat) (k : Nat),
    st.1.length = modulus.length → InRange B st.1 →
    val B st.1 < val B modulus →
    val B st.1 ≡ xv ^ k [MOD val B modulus] →
    st.2.length = modulus.length → InRange B st.2 →
    val B st.2 < val B modulus →
    val B st.2 ≡ xv ^ (k + 1) [MOD val B modulus] →
    ∃ res base,
      exp_loopO (fun a b => general_mul B C modulus a b) bits st =
        some (res, base) ∧
      res.length = modulus.length ∧ InRange B res ∧
      val B res < val B modulus ∧
      val B res ≡ xv ^ (bits.foldl bit_step k) [MOD val B modulus] := by
  intro bits
  induction bits with
  | nil =>
      intro st k h1 h2 h3 h4 _ _ _ _
      exact ⟨st.1, st.2, rfl, h1, h2, h3, by rw [List.foldl_nil]; exact h4⟩
  | cons b bs ih =>
      intro st k h1 h2 h3 h4 h5 h6 h7 h8
      cases b
      · obtain ⟨bnew, hbsome, hblen, hbr, hblt, hbmod⟩ :=
          general_mul_spec B C modulus hB hC hN hm hm0 hpC st.2 st.1
            h5 h6 h1 h2
        obtain ⟨rnew, hrsome, hrlen, hrr, hrlt, hrmod⟩ :=
          general_mul_spec B C modulus hB hC hN hm hm0 hpC st.1 st.1
            h1 h2 h1 h2
        have hbmod2 : val B bnew ≡ xv ^ (2 * k + 1) [MOD val B modulus] := by
          calc val B bnew
              ≡ val B st.2 * val B st.1 [MOD val B modulus] := hbmod
            _ ≡ xv ^ (k + 1) * xv ^ k [MOD val B modulus] :=
                Nat.ModEq.mul h8 h4
            _ = xv ^ (2 * k + 1) := by
                rw [← pow_add]
                congr 1
                omega
        have hrmod2 : val B rnew ≡ xv ^ (2 * k) [MOD val B modulus] := by
          calc val B rnew
              ≡ val B st.1 * val B st.1 [MOD val B modulus] := hrmod
            _ ≡ xv ^ k * xv ^ k [MOD val B modulus] := Nat.ModEq.mul h4 h4
            _ = xv ^ (2 * k) := by
                rw [← pow_add]
                congr 1
                omega
        rw [exp_loopO, if_neg (by simp), hbsome, Option.some_bind, hrsome,
          Option.some_bind]
        have hfold : List.foldl bit_step k (false :: bs) =
            List.foldl bit_step (2 * k) bs := by
          rw [List.foldl_cons]
          have hb : bit_step k false = 2 * k := by
            rw [bit_step]
            simp [Bool.toNat]
          rw [hb]
        rw [hfold]
        exact ih (rnew, bnew) (2 * k) hrlen hrr hrlt hrmod2 hblen hbr hblt
          (by have h9 : 2 * k + 1 = 2 * k + 1 := rfl; exact hbmod2)
      · obtain ⟨rnew, hrsome, hrlen, hrr, hrlt, hrmod⟩ :=
          general_mul_spec B C modulus hB hC hN hm hm0 hpC st.1 st.2
            h1 h2 h5 h6
        obtain ⟨bnew, hbsome, hblen, hbr, hblt, hbmod⟩ :=
          general_mul_spec B C modulus hB hC hN hm hm0 hpC st.2 st.2
            h5 h6 h5 h6
        have hrmod2 : val B rnew ≡ xv ^ (2 * k + 1) [MOD val B modulus] := by
          calc val B rnew
              ≡ val B st.1 * val B st.2 [MOD val B modulus] := hrmod
            _ ≡ xv ^ k * xv ^ (k + 1) [MOD val B modulus] :=
                Nat.ModEq.mul h4 h8
            _ = xv ^ (2 * k + 1) := by
                rw [← pow_add]
                congr 1
                omega
        have hbmod2 : val B bnew ≡ xv ^ (2 * k + 1 + 1) [MOD val B modulus] := by
          calc val B bnew
              ≡ val B st.2 * val B st.2 [MOD val B modulus] := hbmod
            _ ≡ xv ^ (k + 1) * xv ^ (k + 1) [MOD val B modulus] :=
                Nat.ModEq.mul h8 h8
            _ = xv ^ (2 * k + 1 + 1) := by
                rw [← pow_add]
                congr 1
                omega
        rw [exp_loopO, if_pos (by simp), hrsome, Option.some_bind, hbsome,
          Option.some_bind]
        have hfold : List.foldl bit_step k (true :: bs) =
            List.foldl bit_step (2 * k + 1) bs := by
          rw [List.foldl_cons]
          have hb : bit_step k true = 2 * k + 1 := by
            rw [bit_step]
            simp [Bool.toNat]
          rw [hb]
        rw [hfold]
        exact ih (rnew, bnew) (2 * k + 1) hrlen hrr hrlt hrmod2
          hblen hbr hblt hbmod2

end Cryp

namespace Cryp

theorem solinas_inverse_eq (w C : Nat) (modulus element res : List Nat)
    (h : expO (fun a b => general_mul (2 ^ w) C modulus a b)
      (limbint_one modulus.length) element
      (bitsBE w (sub_assign (2 ^ w) modulus (limbint_zero modulus.length)
        (add_assign (2 ^ w) modulus (limbint_one modulus.length)
          (limbint_one modulus.length)))) = some res) :
    solinas_inverse w C modulus element =
      if is_zero res then none else some res := by
  simp only [solinas_inverse, h]

theorem limbint_one_length (N : Nat) :
    (limbint_one N).length = N := by
  simp [limbint_one]

theorem limbint_one_range (B N : Nat) (hB : 1 < B) :
    InRange B (limbint_one N) := by
  intro z hz
  rw [limbint_one] at hz
  rcases List.mem_or_eq_of_mem_set hz with h | h
  · rw [List.eq_of_mem_replicate h]
    omega
  · omega

theorem limbint_one_val (B N : Nat) (hN : 0 < N) :
    val B (limbint_one N) = 1 := by
  rw [limbint_one, val_set_replicate B 1 0 N hN]
  simp

end Cryp

namespace Cryp

/-- C7 counterexample: the prime modulus `p = 2` is expressible in the
general-reduction strategy (`B = 2^2`, `N = 1`, `C = 2`, `p = B - C`),
`[0]` is the zero element, yet `inverse([0]) = Some([1])` instead of
`None`: the exponent `p - 2` computed by the default implementation is
`0`, so `exp` returns `one`, which is not zero. -/
theorem inverse_counterexample :
    Nat.Prime (val 4 [2]) ∧
    (2 : Nat) < 4 ∧
    val 4 [2] + 2 = 4 ^ ([2] : List Nat).length ∧
    InRange 4 [0] ∧
    val 4 [0] < val 4 [2] ∧
    is_zero [0] = true ∧
    solinas_inverse 2 2 [2] [0] = some [1] := by
  refine ⟨?_, by decide, by decide, by decide, by decide, by decide,
    by decide⟩
  have h : val 4 [2] = 2 := rfl
  rw [h]
  norm_num

end Cryp


namespace Cryp

set_option maxHeartbeats 1000000 in
/-- C7 (amended): for every prime modulus `p > 2` expressible in the
general-reduction strategy with the Solinas reduction (`p = B^N - C`,
`B = 2^w`) and every reduced element `x`, the default `inverse`
computes `x^(p-2)` via `exp` and returns `None` exactly when `x` is
zero; for every nonzero `x` it returns `Some(y)` with `x * y ≡ 1`
modulo `p`.  (For `p = 2` the exponent `p - 2 = 0` makes `inverse`
return `Some(one)` even on zero, see the counterexample.) -/
theorem inverse_correct (w C : Nat) (modulus x : List Nat)
    (hw : 0 < w) (hC : C < 2 ^ w) (hN : 0 < modulus.length)
    (hm : InRange (2 ^ w) modulus)
    (hprime : Nat.Prime (val (2 ^ w) modulus))
    (hodd : 2 < val (2 ^ w) modulus)
    (hpC : val (2 ^ w) modulus + C = (2 ^ w) ^ modulus.length)
    (hxl : x.length = modulus.length) (hxr : InRange (2 ^ w) x)
    (hxv : val (2 ^ w) x < val (2 ^ w) modulus) :
    (is_zero x = true → solinas_inverse w C modulus x = none) ∧
    (is_zero x = false → ∃ y, solinas_inverse w C modulus x = some y ∧
      y.length = modulus.length ∧
      val (2 ^ w) y < val (2 ^ w) modulus ∧
      (val (2 ^ w) x * val (2 ^ w) y) % val (2 ^ w) modulus =
        1 % val (2 ^ w) modulus) := by
  have hB : 1 < 2 ^ w := by
    have h2 : 2 ^ 1 ≤ 2 ^ w := Nat.pow_le_pow_right (by omega) (by omega)
    have h3 : (2 : Nat) ^ 1 = 2 := by norm_num
    omega
  have hB0 : 0 < 2 ^ w := by omega
  have hm0 : 0 < val (2 ^ w) modulus := by omega
  have honel := limbint_one_length modulus.length
  have honer := limbint_one_range (2 ^ w) modulus.length hB
  have honev := limbint_one_val (2 ^ w) modulus.length hN
  obtain ⟨haddv, haddl, haddr⟩ :=
    add_assign_spec (2 ^ w) hB modulus (limbint_one modulus.length)
      (limbint_one modulus.length) honel honel hm honer honer
      (by omega) (by omega)
  have hmm2av : val (2 ^ w) (add_assign (2 ^ w) modulus
      (limbint_one modulus.length) (limbint_one modulus.length)) = 2 := by
    rw [haddv, honev]
    exact Nat.mod_eq_of_lt (by omega)
  obtain ⟨hsubv, hsubl, hsubr⟩ :=
    sub_assign_spec (2 ^ w) hB modulus (limbint_zero modulus.length)
      (add_assign (2 ^ w) modulus (limbint_one modulus.length)
        (limbint_one modulus.length))
      (limbint_zero_length modulus.length) haddl hm
      (limbint_zero_range (2 ^ w) modulus.length hB0) haddr
      (by rw [limbint_zero_val]; omega) (by omega)
  have hmm2v : val (2 ^ w) (sub_assign (2 ^ w) modulus
      (limbint_zero modulus.length)
      (add_assign (2 ^ w) modulus (limbint_one modulus.length)
        (limbint_one modulus.length))) = val (2 ^ w) modulus - 2 := by
    rw [hsubv, limbint_zero_val, hmm2av, Nat.zero_add]
    exact Nat.mod_eq_of_lt (by omega)
  have hbits : (bitsBE w (sub_assign (2 ^ w) modulus
      (limbint_zero modulus.length)
      (add_assign (2 ^ w) modulus (limbint_one modulus.length)
        (limbint_one modulus.length)))).foldl bit_step 0 =
      val (2 ^ w) modulus - 2 := by
    rw [foldl_bitsBE w _ 0 hsubr, Nat.zero_mul, Nat.zero_add, hmm2v]
  obtain ⟨res, base, hlsome, hreslen, hresr, hreslt, hresmod⟩ :=
    exp_loopO_general_mul (2 ^ w) C modulus hB hC hN hm hm0 hpC
      (val (2 ^ w) x)
      (bitsBE w (sub_assign (2 ^ w) modulus (limbint_zero modulus.length)
        (add_assign (2 ^ w) modulus (limbint_one modulus.length)
          (limbint_one modulus.length))))
      (limbint_one modulus.length, x) 0
      honel honer
      (by show val (2 ^ w) (limbint_one modulus.length) <
            val (2 ^ w) modulus
          omega)
      (by show val (2 ^ w) (limbint_one modulus.length) ≡
            val (2 ^ w) x ^ 0 [MOD val (2 ^ w) modulus]
          rw [honev, pow_zero])
      hxl hxr hxv
      (by show val (2 ^ w) x ≡
            val (2 ^ w) x ^ (0 + 1) [MOD val (2 ^ w) modulus]
          have hp1 : val (2 ^ w) x ^ (0 + 1) = val (2 ^ w) x := by
            norm_num
          rw [hp1])
  rw [hbits] at hresmod
  have hexpO : expO (fun a b => general_mul (2 ^ w) C modulus a b)
      (limbint_one modulus.length) x
      (bitsBE w (sub_assign (2 ^ w) modulus (limbint_zero modulus.length)
        (add_assign (2 ^ w) modulus (limbint_one modulus.length)
          (limbint_one modulus.length)))) = some res := by
    rw [expO, hlsome, Option.map_some']
  have hinv := solinas_inverse_eq w C modulus x res hexpO
  constructor
  · intro hz
    have hxz : val (2 ^ w) x = 0 := (is_zero_iff (2 ^ w) hB0 x).mp hz
    have hres0 : val (2 ^ w) res = 0 := by
      rw [hxz] at hresmod
      rw [zero_pow (by omega : val (2 ^ w) modulus - 2 ≠ 0)] at hresmod
      have hdvd := Nat.modEq_zero_iff_dvd.mp hresmod
      exact Nat.eq_zero_of_dvd_of_lt hdvd hreslt
    rw [hinv, if_pos ((is_zero_iff (2 ^ w) hB0 res).mpr hres0)]
  · intro hz
    have hxnz : val (2 ^ w) x ≠ 0 := by
      intro h0
      have ht := (is_zero_iff (2 ^ w) hB0 x).mpr h0
      rw [hz] at ht
      simp at ht
    have hcop : Nat.Coprime (val (2 ^ w) x) (val (2 ^ w) modulus) := by
      have hnd : ¬ val (2 ^ w) modulus ∣ val (2 ^ w) x := by
        intro hdvd
        have := Nat.le_of_dvd (Nat.pos_of_ne_zero hxnz) hdvd
        omega
      exact ((Nat.Prime.coprime_iff_not_dvd hprime).mpr hnd).symm
    have hfermat : val (2 ^ w) x ^ (val (2 ^ w) modulus - 1) ≡ 1
        [MOD val (2 ^ w) modulus] := by
      have ht := Nat.ModEq.pow_totient hcop
      rwa [Nat.totient_prime hprime] at ht
    have hres_nz : val (2 ^ w) res ≠ 0 := by
      intro h0
      have h1 : val (2 ^ w) x ^ (val (2 ^ w) modulus - 2) ≡ 0
          [MOD val (2 ^ w) modulus] := by
        rw [← h0]
        exact hresmod.symm
      have hdvd := Nat.modEq_zero_iff_dvd.mp h1
      have hdvdx := hprime.dvd_of_dvd_pow hdvd
      have := Nat.le_of_dvd (Nat.pos_of_ne_zero hxnz) hdvdx
      omega
    have hzres : is_zero res = false := by
      cases hres : is_zero res
      · rfl
      · exact absurd ((is_zero_iff (2 ^ w) hB0 res).mp hres) hres_nz
    refine ⟨res, ?_, hreslen, hreslt, ?_⟩
    · rw [hinv, if_neg (by simp [hzres])]
    · have hchain : val (2 ^ w) x * val (2 ^ w) res ≡ 1
          [MOD val (2 ^ w) modulus] := by
        calc val (2 ^ w) x * val (2 ^ w) res
            ≡ val (2 ^ w) x *
                val (2 ^ w) x ^ (val (2 ^ w) modulus - 2)
              [MOD val (2 ^ w) modulus] := Nat.ModEq.mul_left _ hresmod
          _ = val (2 ^ w) x ^ (val (2 ^ w) modulus - 1) := by
              rw [← pow_succ']
              congr 1
              omega
          _ ≡ 1 [MOD val (2 ^ w) modulus] := hfermat
      exact hchain

end Cryp

namespace Cryp

/-- Witness for C7: `w = 2` (`B = 4`), `C = 1`, modulus `p = 3`,
element `x = [2]`: `inverse` returns `Some([2])` and `2 * 2 ≡ 1 mod 3`. -/
theorem inverse_correct_witness :
    (is_zero [2] = true → solinas_inverse 2 1 [3] [2] = none) ∧
    (is_zero [2] = false → ∃ y, solinas_inverse 2 1 [3] [2] = some y ∧
      y.length = ([3] : List Nat).length ∧
      val (2 ^ 2) y < val (2 ^ 2) [3] ∧
      (val (2 ^ 2) [2] * val (2 ^ 2) y) % val (2 ^ 2) [3] =
        1 % val (2 ^ 2) [3]) :=
  inverse_correct 2 1 [3] [2] (by decide) (by decide) (by decide)
    (by decide)
    (by
      have h : val (2 ^ 2) [3] = 3 := rfl
      rw [h]
      norm_num)
    (by decide) (by decide) (by decide) (by decide) (by decide)

end Cryp

namespace Cryp

/-!
## Scalar multiplication (src/cryp_ec/src/models/scalar_mul.rs)
-/

/-- The loop of `ScalarMul::montgomery_ladder` (scalar_mul.rs lines
43-53) over abstract curve operations: `res = st.1`, `base = st.2`;
bit 1 does `res += base; base.double()`, bit 0 does
`base += res; res.double()`. -/
def ladder_loop {α : Type} (add : α → α → α) (dbl : α → α) :
    List Bool → α × α → α × α
  | [], st => st
  | bit :: bits, st =>
      ladder_loop add dbl bits
        (if bit then (add st.1 st.2, dbl st.2) else (dbl st.1, add st.2 st.1))

/-- `ScalarMul::montgomery_ladder` (scalar_mul.rs lines 39-55):
`res = identity`, iterate over the scalar's bits, return `res`.
The scalar's bit stream `scalar.into_bits_be()` has no definition in
src — the `Integer` trait (biginteger.rs lines 29-33) only provides
`into_limbs_le` — so the bits are taken most-significant first as
produced by `Bits::into_iter_be` (`bitsBE`), the only bit iterator in
the codebase and the order the claim describes. -/
def montgomery_ladder {α : Type} (add : α → α → α) (dbl : α → α)
    (identity base : α) (bits : List Bool) : α :=
  (ladder_loop add dbl bits (identity, base)).1

theorem ladder_loop_eq_exp_loop {α : Type} (add : α → α → α) (dbl : α → α) :
    ∀ (bits : List Bool) (st : α × α),
    ladder_loop add dbl bits st = exp_loop add dbl bits st := by
  intro bits
  induction bits with
  | nil => intro st; rw [ladder_loop, exp_loop]
  | cons b bs ih => intro st; rw [ladder_loop, exp_loop, ih]

/-- C8: over any carrier whose addition is associative with the
identity as two-sided unit and doubling equal to self-addition (as for
a unified curve-addition law on the subgroup generated by `P`),
`montgomery_ladder(P, k)` applied to the most-significant-first bit
stream of the scalar's limbs returns `k * P` (iterated addition of
`P`, `fpow`), and each bit iteration performs exactly one addition and
one doubling regardless of the bit value — `w * limbs.length` of each
in total. -/
theorem montgomery_ladder_correct {α : Type} (add : α → α → α)
    (dbl : α → α) (identity P : α) (w : Nat) (limbs : List Nat)
    (hassoc : ∀ a b c, add (add a b) c = add a (add b c))
    (hidl : ∀ a, add identity a = a) (hidr : ∀ a, add a identity = a)
    (hdbl : ∀ a, dbl a = add a a)
    (hrange : InRange (2 ^ w) limbs) :
    montgomery_ladder add dbl identity P (bitsBE w limbs) =
      fpow add identity P (val (2 ^ w) limbs) ∧
    exp_loop_count add dbl (bitsBE w limbs) ((identity, P), 0, 0) =
      (ladder_loop add dbl (bitsBE w limbs) (identity, P),
        w * limbs.length, w * limbs.length) := by
  constructor
  · rw [montgomery_ladder, ladder_loop_eq_exp_loop]
    have h : (exp_loop add dbl (bitsBE w limbs) (identity, P)).1 =
        exp add dbl identity P (bitsBE w limbs) := rfl
    rw [h, exp_spec add dbl identity P hassoc hidl hidr hdbl,
      foldl_bitsBE w limbs 0 hrange, Nat.zero_mul, Nat.zero_add]
  · rw [exp_loop_count_spec add dbl (bitsBE w limbs) (identity, P) 0 0,
      bitsBE_length w limbs, Nat.zero_add, ladder_loop_eq_exp_loop]

/-- Witness for C8: natural-number addition as the group, `P = 5`,
2-bit limbs `[2, 1]` (scalar 6): the ladder returns `30` and performs
4 additions and 4 doublings. -/
theorem montgomery_ladder_correct_witness :
    montgomery_ladder (fun a b : Nat => a + b) (fun a => a + a) 0 5
        (bitsBE 2 [2, 1]) =
      fpow (fun a b : Nat => a + b) 0 5 (val (2 ^ 2) [2, 1]) ∧
    exp_loop_count (fun a b : Nat => a + b) (fun a => a + a)
        (bitsBE 2 [2, 1]) ((0, 5), 0, 0) =
      (ladder_loop (fun a b : Nat => a + b) (fun a => a + a)
        (bitsBE 2 [2, 1]) (0, 5), 2 * 2, 2 * 2) :=
  montgomery_ladder_correct (fun a b : Nat => a + b) (fun a => a + a) 0 5
    2 [2, 1] (fun a b c => Nat.add_assoc a b c) (fun a => Nat.zero_add a)
    (fun a => Nat.add_zero a) (fun a => rfl) (by decide)

end Cryp

namespace Cryp

/-- `VariableBaseMSM::msm_simple` (scalar_mul.rs lines 58-76):
`res = identity`, then for each `(base, scalar)` pair produced by
`bases.into_iter().zip(scalars.into_iter())` add
`montgomery_ladder(base, scalar.as_int())` into `res`; the scalar's
limbs are turned into bits as in `montgomery_ladder`.  There is no
length check of any kind. -/
def msm_simple {α : Type} (add : α → α → α) (dbl : α → α) (identity : α)
    (w : Nat) (bases : List α) (scalars : List (List Nat)) : α :=
  (bases.zip scalars).foldl
    (fun res p => add res (montgomery_ladder add dbl identity p.1
      (bitsBE w p.2)))
    identity

/-- C9 counterexample: `msm_simple` with two bases and one scalar (a
length mismatch) neither panics nor signals an error: it returns the
normal value computed from the truncated pairing, identical to the
call with the extra base removed, silently ignoring base `5`. -/
theorem msm_mismatch_counterexample :
    ([3, 5] : List Nat).length ≠ ([[1]] : List (List Nat)).length ∧
    msm_simple (fun a b : Nat => a + b) (fun a => a + a) 0 1
      [3, 5] [[1]] = 3 ∧
    msm_simple (fun a b : Nat => a + b) (fun a => a + a) 0 1
      [3] [[1]] = 3 := by
  decide

theorem zip_take_min {α β : Type} : ∀ (as_l : List α) (bs : List β),
    as_l.zip bs =
      (as_l.take (min as_l.length bs.length)).zip
        (bs.take (min as_l.length bs.length)) := by
  intro as_l
  induction as_l with
  | nil => intro bs; simp
  | cons a as_t ih =>
      intro bs
      cases bs with
      | nil => simp
      | cons b bs_t =>
          simp only [List.length_cons]
          have hmin : min (as_t.length + 1) (bs_t.length + 1) =
              min as_t.length bs_t.length + 1 := by omega
          rw [hmin, List.take_succ_cons, List.take_succ_cons,
            List.zip_cons_cons, List.zip_cons_cons, ← ih]

set_option maxHeartbeats 400000 in
/-- C9 (amended): a length mismatch between the bases and the scalars
is silently accepted by `msm_simple`: the `zip` truncates to the
shorter sequence, so the result always equals the multi-scalar
multiplication of the common-length prefixes, with no panic and no
error value for the leftover elements. -/
theorem msm_simple_truncates {α : Type} (add : α → α → α) (dbl : α → α)
    (identity : α) (w : Nat) (bases : List α)
    (scalars : List (List Nat)) :
    msm_simple add dbl identity w bases scalars =
      msm_simple add dbl identity w
        (bases.take (min bases.length scalars.length))
        (scalars.take (min bases.length scalars.length)) := by
  rw [msm_simple, msm_simple, ← zip_take_min]

end Cryp

namespace Cryp

/-!
## Point negation (src/cryp_ec/src/models/coordinates.rs lines 99-104,
162-166; twisted_edwards/a_minus_one_unified.rs lines 24-27;
short_weierstrass/jacobian_general.rs lines 24-26)
-/

/-- `ExtendedPoint` (coordinates.rs lines 99-104). -/
structure ExtendedPoint (α : Type) where
  X : α
  Y : α
  T : α
  Z : α

/-- `JacobianPoint` (coordinates.rs lines 162-166). -/
structure JacobianPoint (α : Type) where
  X : α
  Y : α
  Z : α

/-- `EdwardsAM1UnifiedOperations::neg_in_place`
(a_minus_one_unified.rs lines 24-27): `point.X = -point.X;
point.T = -point.T;`. -/
def neg_in_place_edwards {α : Type} (neg : α → α) (point : ExtendedPoint α) :
    ExtendedPoint α :=
  { point with X := neg point.X, T := neg point.T }

/-- `ShortWeierstrassOperations::neg_in_place`
(jacobian_general.rs lines 24-26): `point.Y = -point.Y;`. -/
def neg_in_place_jacobian {α : Type} (neg : α → α)
    (point : JacobianPoint α) : JacobianPoint α :=
  { point with Y := neg point.Y }

/-- C10: point negation is a pure frame-limited coordinate update: the
Edwards negation negates exactly `X` and `T` and leaves `Y` and `Z`
unchanged, and the Jacobian negation negates exactly `Y` and leaves
`X` and `Z` unchanged, for every coordinate field and every point. -/
theorem neg_in_place_frame {α : Type} (neg : α → α) (p : ExtendedPoint α)
    (q : JacobianPoint α) :
    (neg_in_place_edwards neg p).X = neg p.X ∧
    (neg_in_place_edwards neg p).Y = p.Y ∧
    (neg_in_place_edwards neg p).T = neg p.T ∧
    (neg_in_place_edwards neg p).Z = p.Z ∧
    (neg_in_place_jacobian neg q).X = q.X ∧
    (neg_in_place_jacobian neg q).Y = neg q.Y ∧
    (neg_in_place_jacobian neg q).Z = q.Z :=
  ⟨rfl, rfl, rfl, rfl, rfl, rfl, rfl⟩

end Cryp
